import Mathlib

/-!
# Verification of the Assignment06 compression toolkit

A shallow embedding of the Huffman encoder/decoder with the scrambled
frequency-table header (src/HuffmanEncoding.cpp) and of the LZW codec
(src/LZWLibrary.h), together with proofs and refutations of the frozen
claims about them.

Modelling conventions:

* `ext_char` values are natural numbers; bytes are `0..255`,
  `PSEUDO_EOF = 256`, `NOT_A_CHAR = 257`.
* The Stanford `Map<ext_char, int>` is a binary search tree keyed by the
  character; it is modelled as a strictly key-sorted association list
  `List (Nat × Int)`, whose left-to-right order is exactly the order a
  `foreach` loop visits the entries.
* Machine `int` counts are modelled as `Int` (no arithmetic in the code
  comes near overflow on the inputs the claims quantify over).
* Byte streams are `List Nat`, bit streams are `List Bool`
  (`false` = 0 bit, `true` = 1 bit).
* Fallible operations (`error(...)`, reading past end of stream,
  `throw "Bad compressed k"`, dereferencing an empty range) return
  `Option`.
-/

namespace Assignment06

/-- `PSEUDO_EOF` from HuffmanTypes: the end-of-stream sentinel, value 256. -/
def PSEUDO_EOF : Nat := 256

/-- `NOT_A_CHAR` from HuffmanTypes: the non-character sentinel, value 257. -/
def NOT_A_CHAR : Nat := 257

/-! ## The `Map<ext_char, int>` model: strictly sorted association lists -/

/-- The model of `Map<ext_char, int>`: association list, kept strictly
sorted by key (the Stanford map is a BST, iterated in ascending key order). -/
abbrev FreqMap := List (Nat × Int)

/-- Association-list lookup (first match).  Models `Map::get`'s underlying
search; on the sorted lists we use, keys are unique so first match is the
only match. -/
def assocFind : List (Nat × Int) → Nat → Option Int
  | [], _ => none
  | (k, v) :: rest, key => if key = k then some v else assocFind rest key

/-- `Map::containsKey`. -/
def containsKey (m : FreqMap) (k : Nat) : Bool := (assocFind m k).isSome

/-- `Map::get` — returns the value-initialized default `0` for absent keys. -/
def mapGet (m : FreqMap) (k : Nat) : Int := (assocFind m k).getD 0

/-- `Map::put` / `operator[]=` — insert or overwrite, keeping the list sorted. -/
def mapPut : FreqMap → Nat → Int → FreqMap
  | [], k, v => [(k, v)]
  | (k', v') :: rest, k, v =>
    if k < k' then (k, v) :: (k', v') :: rest
    else if k = k' then (k, v) :: rest
    else (k', v') :: mapPut rest k v

/-- `Map::remove`. -/
def mapRemove : FreqMap → Nat → FreqMap
  | [], _ => []
  | (k', v') :: rest, k => if k = k' then rest else (k', v') :: mapRemove rest k

/-- The representation invariant of the map model: strictly ascending keys. -/
def mapSorted (m : FreqMap) : Prop := List.Pairwise (fun a b => a.1 < b.1) m

instance : DecidablePred mapSorted := fun m =>
  inferInstanceAs (Decidable (List.Pairwise _ m))

theorem assocFind_eq_none (m : FreqMap) (k : Nat) (h : ∀ p ∈ m, p.1 ≠ k) :
    assocFind m k = none := by
  induction m with
  | nil => rfl
  | cons p rest ih =>
    simp only [assocFind]
    have hk : k ≠ p.1 := fun hh => h p (by simp) hh.symm
    simp only [hk, if_false]
    exact ih fun q hq => h q (by simp [hq])

theorem assocFind_isSome_iff (m : FreqMap) (k : Nat) :
    (assocFind m k).isSome ↔ ∃ v, (k, v) ∈ m := by
  induction m with
  | nil => simp [assocFind]
  | cons p rest ih =>
    obtain ⟨k', v'⟩ := p
    by_cases h : k = k'
    · subst h
      simp [assocFind]
    · simp only [assocFind, if_neg h, ih, List.mem_cons, Prod.mk.injEq]
      constructor
      · rintro ⟨v, hv⟩; exact ⟨v, Or.inr hv⟩
      · rintro ⟨v, hv | hv⟩
        · exact absurd hv.1 h
        · exact ⟨v, hv⟩

theorem assocFind_mem (m : FreqMap) (k : Nat) (v : Int)
    (h : assocFind m k = some v) : (k, v) ∈ m := by
  induction m with
  | nil => simp [assocFind] at h
  | cons p rest ih =>
    obtain ⟨k', v'⟩ := p
    by_cases hk : k = k'
    · subst hk
      have hv : v' = v := by simpa [assocFind] using h
      subst hv; simp
    · simp only [assocFind, if_neg hk] at h
      exact List.mem_cons_of_mem _ (ih h)

theorem mem_assocFind (m : FreqMap) (k : Nat) (v : Int)
    (hs : mapSorted m) (h : (k, v) ∈ m) : assocFind m k = some v := by
  induction m with
  | nil => simp at h
  | cons p rest ih =>
    obtain ⟨k', v'⟩ := p
    rcases List.mem_cons.1 h with h1 | h1
    · obtain ⟨h2, h3⟩ := Prod.mk.injEq .. ▸ h1
      subst h2; subst h3
      simp [assocFind]
    · have hlt : k' < k := (List.pairwise_cons.1 hs).1 (k, v) h1
      have hne : k ≠ k' := fun hh => by omega
      simp only [assocFind, if_neg hne]
      exact ih (List.pairwise_cons.1 hs).2 h1

theorem mem_mapPut_cases {m : FreqMap} {k : Nat} {v : Int} {q : Nat × Int}
    (h : q ∈ mapPut m k v) : q ∈ m ∨ q = (k, v) := by
  induction m with
  | nil =>
    simp only [mapPut, List.mem_singleton] at h
    exact Or.inr h
  | cons p rest ih =>
    obtain ⟨k', v'⟩ := p
    by_cases hlt : k < k'
    · simp only [mapPut, if_pos hlt, List.mem_cons] at h
      rcases h with h | h | h
      · exact Or.inr h
      · exact Or.inl (by simp [h])
      · exact Or.inl (by simp [h])
    · by_cases he : k = k'
      · subst he
        have h2 : q = (k, v) ∨ q ∈ rest := by
          simpa [mapPut, if_neg hlt] using h
        rcases h2 with h2 | h2
        · exact Or.inr h2
        · exact Or.inl (List.mem_cons_of_mem _ h2)
      · simp only [mapPut, if_neg hlt, if_neg he, List.mem_cons] at h
        rcases h with h | h
        · exact Or.inl (by simp [h])
        · rcases ih h with h2 | h2
          · exact Or.inl (by simp [h2])
          · exact Or.inr h2

theorem mapPut_sorted (m : FreqMap) (k : Nat) (v : Int) (hs : mapSorted m) :
    mapSorted (mapPut m k v) := by
  induction m with
  | nil => simp [mapPut, mapSorted]
  | cons p rest ih =>
    obtain ⟨k', v'⟩ := p
    obtain ⟨h1, h2⟩ := List.pairwise_cons.1 hs
    by_cases hlt : k < k'
    · simp only [mapPut, if_pos hlt]
      refine List.pairwise_cons.2 ⟨?_, hs⟩
      intro q hq
      rcases List.mem_cons.1 hq with h | h
      · subst h; exact hlt
      · exact lt_trans hlt (h1 q h)
    · by_cases he : k = k'
      · subst he
        simp only [mapPut, if_neg hlt, if_pos rfl]
        exact List.pairwise_cons.2 ⟨h1, h2⟩
      · simp only [mapPut, if_neg hlt, if_neg he]
        refine List.pairwise_cons.2 ⟨?_, ih h2⟩
        intro q hq
        rcases mem_mapPut_cases hq with h | h
        · exact h1 q h
        · subst h; omega

theorem assocFind_mapPut_same (m : FreqMap) (k : Nat) (v : Int) :
    assocFind (mapPut m k v) k = some v := by
  induction m with
  | nil => simp [mapPut, assocFind]
  | cons p rest ih =>
    obtain ⟨k', v'⟩ := p
    by_cases hlt : k < k'
    · simp [mapPut, if_pos hlt, assocFind]
    · by_cases he : k = k'
      · subst he; simp [mapPut, if_neg hlt, assocFind]
      · simp [mapPut, if_neg hlt, if_neg he, assocFind, he, ih]

theorem assocFind_mapPut_other (m : FreqMap) (k k' : Nat) (v : Int)
    (h : k' ≠ k) : assocFind (mapPut m k v) k' = assocFind m k' := by
  induction m with
  | nil => simp [mapPut, assocFind, h]
  | cons p rest ih =>
    obtain ⟨k0, v0⟩ := p
    by_cases hlt : k < k0
    · simp [mapPut, if_pos hlt, assocFind, h]
    · by_cases he : k = k0
      · subst he
        by_cases h2 : k' = k
        · exact absurd h2 h
        · simp [mapPut, if_neg hlt, assocFind, h2]
      · by_cases h2 : k' = k0
        · simp [mapPut, if_neg hlt, if_neg he, assocFind, h2]
        · simp [mapPut, if_neg hlt, if_neg he, assocFind, h2, ih]

theorem assocFind_mapRemove_same (m : FreqMap) (k : Nat) (hs : mapSorted m) :
    assocFind (mapRemove m k) k = none := by
  induction m with
  | nil => rfl
  | cons p rest ih =>
    obtain ⟨k0, v0⟩ := p
    obtain ⟨h1, h2⟩ := List.pairwise_cons.1 hs
    by_cases he : k = k0
    · subst he
      simp only [mapRemove, if_pos rfl]
      exact assocFind_eq_none rest k fun q hq => by
        have := h1 q hq; omega
    · simp only [mapRemove, if_neg he, assocFind, if_neg he]
      exact ih h2

theorem assocFind_mapRemove_other (m : FreqMap) (k k' : Nat) (h : k' ≠ k) :
    assocFind (mapRemove m k) k' = assocFind m k' := by
  induction m with
  | nil => rfl
  | cons p rest ih =>
    obtain ⟨k0, v0⟩ := p
    by_cases he : k = k0
    · subst he; simp [mapRemove, assocFind, h]
    · by_cases h2 : k' = k0
      · simp [mapRemove, if_neg he, assocFind, h2]
      · simp [mapRemove, if_neg he, assocFind, h2, ih]

theorem mem_mapRemove {m : FreqMap} {k : Nat} {q : Nat × Int}
    (h : q ∈ mapRemove m k) : q ∈ m := by
  induction m with
  | nil => simp [mapRemove] at h
  | cons p rest ih =>
    obtain ⟨k0, v0⟩ := p
    by_cases he : k = k0
    · subst he
      simp only [mapRemove, if_pos rfl] at h
      exact List.mem_cons_of_mem _ h
    · simp only [mapRemove, if_neg he, List.mem_cons] at h
      rcases h with h | h
      · simp [h]
      · exact List.mem_cons_of_mem _ (ih h)

theorem mapRemove_sorted (m : FreqMap) (k : Nat) (hs : mapSorted m) :
    mapSorted (mapRemove m k) := by
  induction m with
  | nil => simp [mapRemove, mapSorted]
  | cons p rest ih =>
    obtain ⟨k0, v0⟩ := p
    obtain ⟨h1, h2⟩ := List.pairwise_cons.1 hs
    by_cases he : k = k0
    · subst he; simpa [mapRemove] using h2
    · simp only [mapRemove, if_neg he]
      refine List.pairwise_cons.2 ⟨fun q hq => h1 q (mem_mapRemove hq), ih h2⟩

/-- Extensionality for sorted association lists: equal lookup functions
force equal lists. -/
theorem mapExt (m1 : FreqMap) : ∀ (m2 : FreqMap), mapSorted m1 → mapSorted m2 →
    (∀ k, assocFind m1 k = assocFind m2 k) → m1 = m2 := by
  induction m1 with
  | nil =>
    intro m2 _ _ h
    cases m2 with
    | nil => rfl
    | cons p rest =>
      have := h p.1
      simp [assocFind] at this
  | cons p rest ih =>
    intro m2 h1 h2 h
    obtain ⟨k1, v1⟩ := p
    cases m2 with
    | nil =>
      have := h k1
      simp [assocFind] at this
    | cons q rest2 =>
      obtain ⟨k2, v2⟩ := q
      obtain ⟨hp1, hs1⟩ := List.pairwise_cons.1 h1
      obtain ⟨hp2, hs2⟩ := List.pairwise_cons.1 h2
      -- the two head keys must agree: each head is the minimal present key
      have hk : k1 = k2 := by
        rcases Nat.lt_trichotomy k1 k2 with hlt | he | hgt
        · have := h k1
          simp only [assocFind, if_pos rfl] at this
          have hne : k1 ≠ k2 := by omega
          rw [if_neg hne, assocFind_eq_none rest2 k1 fun q hq => by
            have := hp2 q hq; omega] at this
          exact absurd this (by simp)
        · exact he
        · have := h k2
          have hne : k2 ≠ k1 := by omega
          simp only [assocFind, if_pos rfl, if_neg hne] at this
          rw [assocFind_eq_none rest k2 fun q hq => by
            have := hp1 q hq; omega] at this
          exact absurd this.symm (by simp)
      subst hk
      have hv : v1 = v2 := by
        have := h k1
        simpa [assocFind] using this
      subst hv
      refine congrArg _ (ih rest2 hs1 hs2 fun k => ?_)
      by_cases hk : k = k1
      · subst hk
        rw [assocFind_eq_none rest k fun q hq => by have := hp1 q hq; omega,
            assocFind_eq_none rest2 k fun q hq => by have := hp2 q hq; omega]
      · have := h k
        simpa [assocFind, if_neg hk] using this

/-- The keys of a map, in ascending (iteration) order. -/
def keysOf (m : FreqMap) : List Nat := m.map Prod.fst

theorem assocFind_isSome_iff_mem_keys (m : FreqMap) (k : Nat) :
    (assocFind m k).isSome ↔ k ∈ keysOf m := by
  rw [assocFind_isSome_iff]
  constructor
  · rintro ⟨v, hv⟩
    exact List.mem_map.2 ⟨(k, v), hv, rfl⟩
  · intro h
    obtain ⟨⟨k', v⟩, hmem, hk⟩ := List.mem_map.1 h
    cases hk
    exact ⟨v, hmem⟩

theorem keysOf_pairwise (m : FreqMap) (hs : mapSorted m) :
    List.Pairwise (fun a b => a < b) (keysOf m) := List.Pairwise.map _ (fun _ _ h => h) hs

/-! ## `getFrequencyTable` (HuffmanEncoding.cpp lines 30-59) -/

/-- The `nextChar < 256 && nextChar >= 0` normalization applied to each
byte read from the input stream. -/
def toExtChar (b : Nat) : Nat := if b < 256 then b else NOT_A_CHAR

/-- `getFrequencyTable`: count occurrences of each character of the input,
then put `PSEUDO_EOF` with count 1.  The input stream is modelled by the
list of bytes it yields (the `eof()`/`-1` bookkeeping of the loop is the
stream-exhaustion protocol, not data). -/
def getFrequencyTable (file : List Nat) : FreqMap :=
  let freqMap := file.foldl
    (fun m b =>
      let nextExtChar := toExtChar b
      mapPut m nextExtChar (mapGet m nextExtChar + 1)) []
  mapPut freqMap PSEUDO_EOF 1

/-! ## The frequency-table transposition (`performScrambleOperation`,
HuffmanEncoding.cpp lines 369-411)

The C++ `foreach` iterates over the map while the loop body mutates it.
Entries are only ever removed at the key currently being visited, and the
`alreadySwapped` set screens out every key the body inserts ahead of the
iterator, so the iteration is equivalent to iterating over a snapshot of
the original key list; the model folds over that snapshot. -/

/-- One iteration of the `foreach` body of `performScrambleOperation`.
State: the map being mutated and the `alreadySwapped` set. -/
def scrambleStep (decode : Bool) (st : FreqMap × List Nat) (ch : Nat) :
    FreqMap × List Nat :=
  let frequencies := st.1
  let alreadySwapped := st.2
  -- do not encrypt EOF or non characters
  if ch = PSEUDO_EOF ∨ ch = NOT_A_CHAR then st
  -- don't swap back an already swapped element
  else if ch ∈ alreadySwapped then st
  else
    let oldChar := ch
    let oldFreq := mapGet frequencies ch
    let scrambledCh : Nat :=
      if decode then ((255 : Int) - (ch : Int)).natAbs
      else ((ch : Int) - 255).natAbs
    let oldEncodedChFreq : Int :=
      if containsKey frequencies scrambledCh then mapGet frequencies scrambledCh
      else 0
    if containsKey frequencies scrambledCh then
      (mapPut (mapPut frequencies scrambledCh oldFreq) oldChar oldEncodedChFreq,
       scrambledCh :: alreadySwapped)
    else
      (mapRemove (mapPut frequencies scrambledCh oldFreq) oldChar,
       scrambledCh :: alreadySwapped)

/-- `performScrambleOperation` — fold of the loop body over the key
snapshot. -/
def performScrambleOperation (frequencies : FreqMap) (decode : Bool) : FreqMap :=
  ((keysOf frequencies).foldl (scrambleStep decode) (frequencies, [])).1

/-- `scrambleTable`. -/
def scrambleTable (frequencies : FreqMap) : FreqMap :=
  performScrambleOperation frequencies false

/-- `descrambleTable`. -/
def descrambleTable (frequencies : FreqMap) : FreqMap :=
  performScrambleOperation frequencies true

/-- The permutation of key space the transposition implements: byte keys
pair with their complement, the sentinels stay fixed. -/
def mirrorKey (k : Nat) : Nat := if k ≤ 255 then 255 - k else k

/-- A byte key of `m` is primary when its pair is handled at its own loop
iteration: its partner is absent, or it is the smaller of the pair. -/
def primaryKey (m : FreqMap) (a : Nat) : Prop :=
  a ∈ keysOf m ∧ a ≤ 255 ∧ (255 - a ∉ keysOf m ∨ a < 255 - a)

/-- After the loop has visited the keys of `P`, the pair `{k, 255-k}` has
been swapped already exactly when its primary key lies in `P`. -/
def pairDone (m : FreqMap) (P : List Nat) (k : Nat) : Prop :=
  k ≤ 255 ∧ ∃ a ∈ P, primaryKey m a ∧ (a = k ∨ a = 255 - k)

instance (m : FreqMap) (a : Nat) : Decidable (primaryKey m a) := by
  unfold primaryKey
  infer_instance

instance (m : FreqMap) (P : List Nat) (k : Nat) : Decidable (pairDone m P k) := by
  unfold pairDone
  infer_instance

theorem primaryKey_not_of_big {m : FreqMap} {ch : Nat} (h : 256 ≤ ch) :
    ¬ primaryKey m ch := fun hp => by
  have := hp.2.1; omega

theorem pairDone_append_of_not {m : FreqMap} {P : List Nat} {k ch : Nat}
    (h : ¬ primaryKey m ch) : pairDone m (P ++ [ch]) k ↔ pairDone m P k := by
  unfold pairDone
  constructor
  · rintro ⟨hk, a, haP, hap, ha⟩
    rcases List.mem_append.1 haP with hP | hP
    · exact ⟨hk, a, hP, hap, ha⟩
    · rw [List.mem_singleton] at hP
      subst hP; exact absurd hap h
  · rintro ⟨hk, a, haP, hap, ha⟩
    exact ⟨hk, a, List.mem_append.2 (Or.inl haP), hap, ha⟩

theorem swapSet_append_of_not {m : FreqMap} {P : List Nat} {x ch : Nat}
    (h : ¬ primaryKey m ch) :
    (∃ a, primaryKey m a ∧ a ∈ P ++ [ch] ∧ x = 255 - a) ↔
    (∃ a, primaryKey m a ∧ a ∈ P ∧ x = 255 - a) := by
  constructor
  · rintro ⟨a, hap, haP, ha⟩
    rcases List.mem_append.1 haP with hP | hP
    · exact ⟨a, hap, hP, ha⟩
    · rw [List.mem_singleton] at hP
      subst hP; exact absurd hap h
  · rintro ⟨a, hap, haP, ha⟩
    exact ⟨a, hap, List.mem_append.2 (Or.inl haP), ha⟩

theorem swapSet_append {m : FreqMap} {P : List Nat} {x ch : Nat}
    (hp : primaryKey m ch) :
    (∃ a, primaryKey m a ∧ a ∈ P ++ [ch] ∧ x = 255 - a) ↔
    (x = 255 - ch ∨ ∃ a, primaryKey m a ∧ a ∈ P ∧ x = 255 - a) := by
  constructor
  · rintro ⟨a, hap, haP, ha⟩
    rcases List.mem_append.1 haP with hP | hP
    · exact Or.inr ⟨a, hap, hP, ha⟩
    · rw [List.mem_singleton] at hP
      subst hP; exact Or.inl ha
  · rintro (hx | ⟨a, hap, haP, ha⟩)
    · exact ⟨ch, hp, List.mem_append.2 (Or.inr (by simp)), hx⟩
    · exact ⟨a, hap, List.mem_append.2 (Or.inl haP), ha⟩

theorem pairDone_append {m : FreqMap} {P : List Nat} {k ch : Nat}
    (hp : primaryKey m ch) (hch : ch ≤ 255) :
    pairDone m (P ++ [ch]) k ↔ (k = ch ∨ k = 255 - ch) ∨ pairDone m P k := by
  unfold pairDone
  constructor
  · rintro ⟨hk, a, haP, hap, ha⟩
    rcases List.mem_append.1 haP with hP | hP
    · exact Or.inr ⟨hk, a, hP, hap, ha⟩
    · rw [List.mem_singleton] at hP
      subst hP
      rcases ha with ha | ha
      · exact Or.inl (Or.inl ha.symm)
      · exact Or.inl (Or.inr (by omega))
  · rintro ((hk | hk) | ⟨hk, a, haP, hap, ha⟩)
    · subst hk
      exact ⟨hch, k, List.mem_append.2 (Or.inr (by simp)), hp, Or.inl rfl⟩
    · subst hk
      exact ⟨by omega, ch, List.mem_append.2 (Or.inr (by simp)), hp,
        Or.inr (by omega)⟩
    · exact ⟨hk, a, List.mem_append.2 (Or.inl haP), hap, ha⟩

/-- The loop invariant of `performScrambleOperation`, pushed through the
remaining key snapshot `S`: visited keys `P`, current map `mp`, current
`alreadySwapped` set. -/
theorem scramble_fold (m : FreqMap) (decode : Bool)
    (hs : mapSorted m) (hb : ∀ p ∈ m, p.1 ≤ 257) :
    ∀ (S P : List Nat) (mp : FreqMap) (swapped : List Nat),
      keysOf m = P ++ S →
      mapSorted mp →
      (∀ x, x ∈ swapped ↔ ∃ a, primaryKey m a ∧ a ∈ P ∧ x = 255 - a) →
      (∀ k, assocFind mp k =
        if pairDone m P k then assocFind m (mirrorKey k) else assocFind m k) →
      mapSorted (S.foldl (scrambleStep decode) (mp, swapped)).1 ∧
      ∀ k, assocFind (S.foldl (scrambleStep decode) (mp, swapped)).1 k =
        if pairDone m (P ++ S) k then assocFind m (mirrorKey k)
        else assocFind m k := by
  intro S
  induction S with
  | nil =>
    intro P mp swapped hK hs' hB hC
    simpa using ⟨hs', hC⟩
  | cons ch S' ih =>
    intro P mp swapped hK hs' hB hC
    have hble : ∀ x ∈ keysOf m, x ≤ 257 := by
      intro x hx
      obtain ⟨p, hp, hpx⟩ := List.mem_map.1 hx
      exact hpx ▸ hb p hp
    have hKp : List.Pairwise (fun a b => a < b) (keysOf m) := keysOf_pairwise m hs
    have hKp2 := hK ▸ hKp
    have hPlt : ∀ x ∈ P, x < ch := by
      intro x hx
      exact (List.pairwise_append.1 hKp2).2.2 x hx ch (by simp)
    have hS'gt : ∀ x ∈ S', ch < x := by
      intro x hx
      exact (List.pairwise_cons.1 (List.pairwise_append.1 hKp2).2.1).1 x hx
    have hchK : ch ∈ keysOf m := by
      rw [hK]; exact List.mem_append.2 (Or.inr (by simp))
    have hchnotP : ch ∉ P := fun h => lt_irrefl ch (hPlt ch h)
    have hmemlt : ∀ x ∈ keysOf m, x < ch → x ∈ P := by
      intro x hx hlt
      rw [hK] at hx
      rcases List.mem_append.1 hx with h | h
      · exact h
      · rcases List.mem_cons.1 h with h | h
        · omega
        · have := hS'gt x h; omega
    have hrw : P ++ ch :: S' = (P ++ [ch]) ++ S' := by simp
    rw [List.foldl_cons, hrw]
    by_cases hsent : ch = PSEUDO_EOF ∨ ch = NOT_A_CHAR
    · -- sentinel keys are skipped
      have hnp : ¬ primaryKey m ch := by
        apply primaryKey_not_of_big
        unfold PSEUDO_EOF NOT_A_CHAR at hsent
        omega
      have hstep : scrambleStep decode (mp, swapped) ch = (mp, swapped) := by
        simp only [scrambleStep, if_pos hsent]
      rw [hstep]
      refine ih (P ++ [ch]) mp swapped (by rw [hK]; simp) hs' ?_ ?_
      · intro x
        rw [swapSet_append_of_not hnp]
        exact hB x
      · intro k
        simp only [pairDone_append_of_not hnp]
        exact hC k
    · have hch255 : ch ≤ 255 := by
        have := hble ch hchK
        unfold PSEUDO_EOF NOT_A_CHAR at hsent
        omega
      by_cases hsw : ch ∈ swapped
      · -- partner already swapped at an earlier iteration: skipped
        have hnp : ¬ primaryKey m ch := by
          obtain ⟨a, hap, haP, hcha⟩ : ∃ a, primaryKey m a ∧ a ∈ P ∧
              ch = 255 - a := (hB ch).1 hsw
          rintro ⟨-, -, hcond⟩
          have ha255 : a ≤ 255 := hap.2.1
          have haK : a ∈ keysOf m := hap.1
          have h255chK : 255 - ch ∈ keysOf m := by
            have : 255 - ch = a := by omega
            rw [this]; exact haK
          have hach : a < ch := by
            rcases hap.2.2 with h | h
            · exact absurd (by rw [show (255 : Nat) - a = ch by omega] at h ⊢; exact hchK) h
            · omega
          rcases hcond with h | h
          · exact h h255chK
          · omega
        have hstep : scrambleStep decode (mp, swapped) ch = (mp, swapped) := by
          simp only [scrambleStep, if_neg hsent, if_pos hsw]
        rw [hstep]
        refine ih (P ++ [ch]) mp swapped (by rw [hK]; simp) hs' ?_ ?_
        · intro x
          rw [swapSet_append_of_not hnp]
          exact hB x
        · intro k
          simp only [pairDone_append_of_not hnp]
          exact hC k
      · -- the genuine swap/move iteration
        have hp : primaryKey m ch := by
          by_contra hnp
          have hcond : 255 - ch ∈ keysOf m ∧ ¬ ch < 255 - ch := by
            by_contra hc
            push_neg at hc
            exact hnp ⟨hchK, hch255, by
              by_cases hmem : 255 - ch ∈ keysOf m
              · exact Or.inr (hc hmem)
              · exact Or.inl hmem⟩
          have hlt : 255 - ch < ch := by omega
          have hscP : 255 - ch ∈ P := hmemlt _ hcond.1 hlt
          have hprim : primaryKey m (255 - ch) := by
            refine ⟨hcond.1, by omega, Or.inr ?_⟩
            omega
          exact hsw ((hB ch).2 ⟨255 - ch, hprim, hscP, by omega⟩)
        set sc := 255 - ch with hsc
        have hscne : sc ≠ ch := by omega
        have hmirror_ch : mirrorKey ch = sc := by simp [mirrorKey, hch255]
        have hmirror_sc : mirrorKey sc = ch := by
          simp only [mirrorKey, if_pos (by omega : sc ≤ 255)]
          omega
        have habs : (if decode then ((255 : Int) - (ch : Int)).natAbs
            else ((ch : Int) - 255).natAbs) = sc := by
          rcases Bool.eq_false_or_eq_true decode with h | h <;> simp [h] <;> omega
        have hndch : ¬ pairDone m P ch := by
          rintro ⟨-, a, haP, hap, ha⟩
          rcases ha with ha | ha
          · exact hchnotP (ha ▸ haP)
          · exact hsw ((hB ch).2 ⟨a, hap, haP, by omega⟩)
        have hndsc : ¬ pairDone m P sc := by
          rintro ⟨-, a, haP, hap, ha⟩
          rcases ha with ha | ha
          · exact hsw ((hB ch).2 ⟨a, hap, haP, by omega⟩)
          · have ha2 : a = ch := by omega
            exact hchnotP (ha2 ▸ haP)
        have hCch : assocFind mp ch = assocFind m ch := by
          rw [hC ch, if_neg hndch]
        have hCsc : assocFind mp sc = assocFind m sc := by
          rw [hC sc, if_neg hndsc]
        obtain ⟨vch, hvch⟩ : ∃ v, assocFind m ch = some v := by
          have := (assocFind_isSome_iff_mem_keys m ch).2 hchK
          exact Option.isSome_iff_exists.1 this
        -- the new pairDone set after this iteration
        have hpd : ∀ k, pairDone m (P ++ [ch]) k ↔
            (k = ch ∨ k = sc) ∨ pairDone m P k := fun k =>
          pairDone_append hp hch255
        by_cases hcsc : containsKey mp sc
        · -- both halves of the pair are present: swap the two counts
          obtain ⟨vsc, hvsc⟩ : ∃ v, assocFind m sc = some v := by
            have : (assocFind mp sc).isSome := hcsc
            rw [hCsc] at this
            exact Option.isSome_iff_exists.1 this
          have hstep : scrambleStep decode (mp, swapped) ch =
              (mapPut (mapPut mp sc (mapGet mp ch)) ch (mapGet mp sc),
               sc :: swapped) := by
            simp only [scrambleStep, if_neg hsent, if_neg hsw, habs,
              if_pos hcsc]
          rw [hstep]
          refine ih (P ++ [ch]) _ _ (by rw [hK]; simp)
            (mapPut_sorted _ _ _ (mapPut_sorted _ _ _ hs')) ?_ ?_
          · intro x
            simp only [List.mem_cons]
            rw [swapSet_append hp]
            constructor
            · rintro (h | h)
              · exact Or.inl (by omega)
              · exact Or.inr ((hB x).1 h)
            · rintro (h | h)
              · exact Or.inl (by omega)
              · exact Or.inr ((hB x).2 h)
          · intro k
            simp only [hpd k]
            by_cases hk1 : k = ch
            · subst hk1
              rw [assocFind_mapPut_same, if_pos (Or.inl (Or.inl rfl)),
                hmirror_ch]
              unfold mapGet
              rw [hCsc, hvsc]
              rfl
            · by_cases hk2 : k = sc
              · subst hk2
                rw [assocFind_mapPut_other _ _ _ _ (by omega),
                  assocFind_mapPut_same, if_pos (Or.inl (Or.inr rfl)),
                  hmirror_sc]
                unfold mapGet
                rw [hCch, hvch]
                rfl
              · rw [assocFind_mapPut_other _ _ _ _ hk1,
                  assocFind_mapPut_other _ _ _ _ hk2, hC k]
                by_cases hd : pairDone m P k
                · rw [if_pos hd, if_pos (Or.inr hd)]
                · rw [if_neg hd, if_neg (by rintro ((h | h) | h) <;> tauto)]
        · -- only this half present: move the entry across
          have hvsc : assocFind m sc = none := by
            have : ¬ (assocFind mp sc).isSome := fun h => hcsc h
            rw [hCsc] at this
            exact Option.not_isSome_iff_eq_none.1 this
          have hstep : scrambleStep decode (mp, swapped) ch =
              (mapRemove (mapPut mp sc (mapGet mp ch)) ch,
               sc :: swapped) := by
            simp only [scrambleStep, if_neg hsent, if_neg hsw, habs,
              if_neg hcsc]
          rw [hstep]
          refine ih (P ++ [ch]) _ _ (by rw [hK]; simp)
            (mapRemove_sorted _ _ (mapPut_sorted _ _ _ hs')) ?_ ?_
          · intro x
            simp only [List.mem_cons]
            rw [swapSet_append hp]
            constructor
            · rintro (h | h)
              · exact Or.inl (by omega)
              · exact Or.inr ((hB x).1 h)
            · rintro (h | h)
              · exact Or.inl (by omega)
              · exact Or.inr ((hB x).2 h)
          · intro k
            simp only [hpd k]
            by_cases hk1 : k = ch
            · subst hk1
              rw [assocFind_mapRemove_same _ _ (mapPut_sorted _ _ _ hs'),
                if_pos (Or.inl (Or.inl rfl)), hmirror_ch, hvsc]
            · by_cases hk2 : k = sc
              · subst hk2
                rw [assocFind_mapRemove_other _ _ _ (by omega),
                  assocFind_mapPut_same, if_pos (Or.inl (Or.inr rfl)),
                  hmirror_sc]
                unfold mapGet
                rw [hCch, hvch]
                rfl
              · rw [assocFind_mapRemove_other _ _ _ hk1,
                  assocFind_mapPut_other _ _ _ _ hk2, hC k]
                by_cases hd : pairDone m P k
                · rw [if_pos hd, if_pos (Or.inr hd)]
                · rw [if_neg hd, if_neg (by rintro ((h | h) | h) <;> tauto)]

/-- `performScrambleOperation` relabels every byte key by its complement
`255 - k` and keeps sentinel entries intact: the scrambled table's lookup
at `k` is the original lookup at `mirrorKey k`. -/
theorem scramble_find (m : FreqMap) (decode : Bool)
    (hs : mapSorted m) (hb : ∀ p ∈ m, p.1 ≤ 257) :
    mapSorted (performScrambleOperation m decode) ∧
    ∀ k, assocFind (performScrambleOperation m decode) k =
      assocFind m (mirrorKey k) := by
  obtain ⟨h1, h2⟩ := scramble_fold m decode hs hb (keysOf m) [] m []
    (by simp) hs (by simp [primaryKey]) (by
      intro k
      rw [if_neg (by rintro ⟨-, a, h, -⟩; simp at h)])
  refine ⟨h1, fun k => ?_⟩
  unfold performScrambleOperation
  rw [h2 k]
  by_cases hd : pairDone m ([] ++ keysOf m) k
  · rw [if_pos hd]
  · rw [if_neg hd]
    by_cases hk : k ≤ 255
    · -- neither the key nor its partner occurs: both lookups are `none`
      have hknot : k ∉ keysOf m := by
        intro hmem
        apply hd
        refine ⟨hk, ?_⟩
        by_cases hpart : 255 - k ∈ keysOf m
        · rcases Nat.lt_or_ge k (255 - k) with hlt | hge
          · exact ⟨k, by simpa using hmem, ⟨hmem, hk, Or.inr hlt⟩, Or.inl rfl⟩
          · refine ⟨255 - k, by simpa using hpart,
              ⟨hpart, by omega, Or.inr (by omega)⟩, Or.inr rfl⟩
        · exact ⟨k, by simpa using hmem, ⟨hmem, hk, Or.inl hpart⟩, Or.inl rfl⟩
      have hpartnot : 255 - k ∉ keysOf m := by
        intro hmem
        apply hd
        refine ⟨hk, ?_⟩
        refine ⟨255 - k, by simpa using hmem, ⟨hmem, by omega, Or.inl (by
          rw [show (255 : Nat) - (255 - k) = k by omega]; exact hknot)⟩,
          Or.inr rfl⟩
      have e1 : assocFind m k = none := by
        by_contra h
        exact hknot ((assocFind_isSome_iff_mem_keys m k).1
          (Option.isSome_iff_ne_none.2 h))
      have e2 : assocFind m (mirrorKey k) = none := by
        by_contra h
        exact hpartnot (by
          have := (assocFind_isSome_iff_mem_keys m (mirrorKey k)).1
            (Option.isSome_iff_ne_none.2 h)
          simpa [mirrorKey, hk] using this)
      rw [e1, e2]
    · simp [mirrorKey, hk]

theorem mirrorKey_mirrorKey (k : Nat) : mirrorKey (mirrorKey k) = k := by
  unfold mirrorKey
  by_cases h : k ≤ 255
  · rw [if_pos h, if_pos (by omega)]
    omega
  · rw [if_neg h, if_neg h]

theorem scramble_keys_le (m : FreqMap) (decode : Bool) (b : Nat)
    (hs : mapSorted m) (hb : ∀ p ∈ m, p.1 ≤ 257) (hb256 : 256 ≤ b)
    (hble : ∀ p ∈ m, p.1 ≤ b) :
    ∀ p ∈ performScrambleOperation m decode, p.1 ≤ b := by
  intro p hp
  have hfind := mem_assocFind _ _ _ (scramble_find m decode hs hb).1 hp
  rw [(scramble_find m decode hs hb).2 p.1] at hfind
  have hmem : mirrorKey p.1 ∈ keysOf m :=
    (assocFind_isSome_iff_mem_keys ..).1 (by rw [hfind]; rfl)
  obtain ⟨q, hq, hqk⟩ := List.mem_map.1 hmem
  have := hble q hq
  by_cases hk : p.1 ≤ 255
  · omega
  · rw [hqk] at this
    unfold mirrorKey at this
    rw [if_neg hk] at this
    exact this

theorem scramble_values (m : FreqMap) (decode : Bool)
    (hs : mapSorted m) (hb : ∀ p ∈ m, p.1 ≤ 257) :
    ∀ p ∈ performScrambleOperation m decode, (mirrorKey p.1, p.2) ∈ m := by
  intro p hp
  have hfind := mem_assocFind _ _ _ (scramble_find m decode hs hb).1 hp
  rw [(scramble_find m decode hs hb).2 p.1] at hfind
  exact assocFind_mem _ _ _ hfind

/-- Applying the transposition twice restores the table. -/
theorem descramble_scramble (m : FreqMap)
    (hs : mapSorted m) (hb : ∀ p ∈ m, p.1 ≤ 257) :
    descrambleTable (scrambleTable m) = m := by
  obtain ⟨hs1, hf1⟩ := scramble_find m false hs hb
  have hb1 : ∀ p ∈ scrambleTable m, p.1 ≤ 257 :=
    scramble_keys_le m false 257 hs hb (by omega) hb
  obtain ⟨hs2, hf2⟩ := scramble_find (scrambleTable m) true hs1 hb1
  refine mapExt _ m hs2 hs fun k => ?_
  show assocFind (performScrambleOperation (scrambleTable m) true) k = _
  rw [hf2 k]
  unfold scrambleTable
  rw [hf1 (mirrorKey k), mirrorKey_mirrorKey]

/-! ## Claim C3: the transposition is an involution -/

/-- C3.  For every valid frequency table `t` (strictly sorted keys in the
`ext_char` range, containing `END_OF_STREAM`), descrambling the scrambled
table restores `t` exactly, and the `END_OF_STREAM` and `NOT_A_SYMBOL`
entries of the table are never touched by the scramble. -/
theorem C3_scramble_involution (t : FreqMap) (hs : mapSorted t)
    (hb : ∀ p ∈ t, p.1 ≤ 257) (he : containsKey t PSEUDO_EOF = true) :
    descrambleTable (scrambleTable t) = t ∧
    assocFind (scrambleTable t) PSEUDO_EOF = assocFind t PSEUDO_EOF ∧
    assocFind (scrambleTable t) NOT_A_CHAR = assocFind t NOT_A_CHAR := by
  refine ⟨descramble_scramble t hs hb, ?_, ?_⟩
  · show assocFind (performScrambleOperation t false) PSEUDO_EOF = _
    rw [(scramble_find t false hs hb).2 PSEUDO_EOF]
    rfl
  · show assocFind (performScrambleOperation t false) NOT_A_CHAR = _
    rw [(scramble_find t false hs hb).2 NOT_A_CHAR]
    rfl

/-- Witness for C3 at the concrete table `{'a': 5, 'b': 2, END_OF_STREAM: 1}`. -/
theorem C3_scramble_involution_witness :
    descrambleTable (scrambleTable [(97, 5), (98, 2), (256, 1)]) =
      [(97, 5), (98, 2), (256, 1)] :=
  (C3_scramble_involution [(97, 5), (98, 2), (256, 1)]
    (by decide) (by decide) (by decide)).1

/-! ## Text-mode integer I/O on byte streams

`writeFileHeader` prints integers in ASCII decimal with `operator<<`;
`readFileHeader` parses them back with `operator>>` (which skips leading
whitespace and accepts an optional sign). -/

/-- The decimal digit bytes of a natural number, most significant first,
as `operator<<` prints it. -/
def natToDecBytes (n : Nat) : List Nat :=
  if n = 0 then [48] else (Nat.digits 10 n).reverse.map (fun d => d + 48)

/-- `operator<<` for `int`. -/
def intToDecBytes (v : Int) : List Nat :=
  if v < 0 then 45 :: natToDecBytes v.natAbs else natToDecBytes v.toNat

/-- `isdigit` on a byte. -/
def isDigitByte (b : Nat) : Bool := decide (48 ≤ b ∧ b ≤ 57)

/-- `isspace` on a byte. -/
def isSpaceByte (b : Nat) : Bool := decide (b = 32 ∨ (9 ≤ b ∧ b ≤ 13))

/-- The digit-consuming loop of `operator>>` for integers. -/
def readDigits (acc : Nat) : List Nat → Nat × List Nat
  | [] => (acc, [])
  | b :: rest =>
    if isDigitByte b then readDigits (10 * acc + (b - 48)) rest
    else (acc, b :: rest)

/-- `operator>>` for `int`: skip whitespace, optional minus sign, digits.
(When no digit follows, the C++ stream enters the fail state with value 0;
the streams this development parses are always well-formed.) -/
def readInt (input : List Nat) : Int × List Nat :=
  let l := input.dropWhile isSpaceByte
  if l.head? = some 45 then
    let r := readDigits 0 l.tail
    (-(r.1 : Int), r.2)
  else
    let r := readDigits 0 l
    ((r.1 : Int), r.2)

theorem readDigits_append (ds : List Nat) :
    ∀ (acc : Nat) (rest : List Nat), (∀ d ∈ ds, isDigitByte d = true) →
    readDigits acc (ds ++ rest) =
      readDigits (ds.foldl (fun a b => 10 * a + (b - 48)) acc) rest := by
  induction ds with
  | nil => intro acc rest _; rfl
  | cons d ds ih =>
    intro acc rest hd
    rw [List.cons_append, readDigits, if_pos (hd d (by simp)), List.foldl_cons]
    exact ih _ rest fun x hx => hd x (by simp [hx])

theorem readDigits_stop (acc : Nat) (rest : List Nat)
    (h : ∀ b, rest.head? = some b → isDigitByte b = false) :
    readDigits acc rest = (acc, rest) := by
  cases rest with
  | nil => rfl
  | cons b r =>
    rw [readDigits, if_neg (by rw [h b rfl]; simp)]

theorem foldl_digits_val (L : List Nat) :
    ∀ acc : Nat, (∀ d ∈ L, d < 10) →
    (L.reverse.map (fun d => d + 48)).foldl (fun a b => 10 * a + (b - 48)) acc =
      acc * 10 ^ L.length + Nat.ofDigits 10 L := by
  induction L with
  | nil => intro acc _; simp
  | cons d L ih =>
    intro acc hd
    rw [List.reverse_cons, List.map_append, List.foldl_append]
    rw [ih acc fun x hx => hd x (by simp [hx])]
    simp only [List.map_cons, List.map_nil, List.foldl_cons, List.foldl_nil,
      Nat.ofDigits_cons, List.length_cons]
    have : d + 48 - 48 = d := by omega
    rw [this]
    ring

theorem natToDecBytes_digits (n : Nat) :
    ∀ d ∈ natToDecBytes n, isDigitByte d = true := by
  intro d hd
  unfold natToDecBytes at hd
  by_cases h : n = 0
  · rw [if_pos h] at hd
    simp at hd
    subst hd; decide
  · rw [if_neg h] at hd
    obtain ⟨x, hx, hxd⟩ := List.mem_map.1 (List.mem_reverse.1 (by
      simpa using hd))
    have hlt : x < 10 := Nat.digits_lt_base (by omega) hx
    subst hxd
    simp only [isDigitByte, decide_eq_true_eq]
    omega

theorem readDigits_natToDecBytes (n : Nat) (rest : List Nat)
    (h : ∀ b, rest.head? = some b → isDigitByte b = false) :
    readDigits 0 (natToDecBytes n ++ rest) = (n, rest) := by
  unfold natToDecBytes
  by_cases h0 : n = 0
  · subst h0
    rw [if_pos rfl, List.singleton_append, readDigits, if_pos (by decide),
      readDigits_stop _ _ h]
  · rw [if_neg h0,
      readDigits_append _ 0 rest (by
        intro d hd
        exact natToDecBytes_digits n d (by
          unfold natToDecBytes; rw [if_neg h0]; exact hd)),
      foldl_digits_val _ 0 (fun d hd => Nat.digits_lt_base (by omega) hd),
      readDigits_stop _ _ h]
    rw [Nat.ofDigits_digits]
    simp

theorem readInt_natToDecBytes (n : Nat) (rest : List Nat)
    (h : ∀ b, rest.head? = some b → isDigitByte b = false) :
    readInt (natToDecBytes n ++ rest) = ((n : Int), rest) := by
  have hne : natToDecBytes n ≠ [] := by
    unfold natToDecBytes
    by_cases h0 : n = 0
    · rw [if_pos h0]; simp
    · rw [if_neg h0]
      simpa using Nat.digits_ne_nil_iff_ne_zero.2 h0
  obtain ⟨d, ds0, hds0⟩ := List.exists_cons_of_ne_nil hne
  have hdig : isDigitByte d = true := natToDecBytes_digits n d (by rw [hds0]; simp)
  have hds : natToDecBytes n ++ rest = d :: (ds0 ++ rest) := by rw [hds0]; rfl
  unfold readInt
  rw [hds]
  have hnsp : isSpaceByte d = false := by
    simp only [isDigitByte, decide_eq_true_eq] at hdig
    simp only [isSpaceByte, decide_eq_false_iff_not]
    omega
  rw [List.dropWhile_cons_of_neg (by rw [hnsp]; simp)]
  have hne45 : d ≠ 45 := by
    simp only [isDigitByte, decide_eq_true_eq] at hdig
    omega
  have hr := readDigits_natToDecBytes n rest h
  rw [hds] at hr
  rw [if_neg (by simp [hne45])]
  simp [hr]

theorem readInt_intToDecBytes_nonneg (v : Int) (hv : 0 ≤ v) (rest : List Nat)
    (h : ∀ b, rest.head? = some b → isDigitByte b = false) :
    readInt (intToDecBytes v ++ rest) = (v, rest) := by
  unfold intToDecBytes
  rw [if_neg (by omega), readInt_natToDecBytes _ _ h]
  rw [Int.toNat_of_nonneg hv]

/-! ## `writeFileHeader` / `readFileHeader`
(HuffmanEncoding.cpp lines 456-489 and 504-542)

`writeFileHeader` takes the frequency table by reference and scrambles it
in place before writing; the model returns the post-call table together
with the bytes written, or `none` when the `error(...)` call fires. -/

/-- The letter/frequency pair loop of `writeFileHeader`: for each entry in
iteration order, skip `PSEUDO_EOF`, otherwise write the raw symbol byte
(`char(ch)` truncates to a byte), the ASCII decimal count, and a space. -/
def writeHeaderPairs : FreqMap → List Nat
  | [] => []
  | (ch, v) :: rest =>
    if ch = PSEUDO_EOF then writeHeaderPairs rest
    else (ch % 256) :: (intToDecBytes v ++ 32 :: writeHeaderPairs rest)

/-- `writeFileHeader`: scramble the table, abort if `PSEUDO_EOF` is
missing, then write the entry count minus one, a space, and the pairs. -/
def writeFileHeader (frequencies : FreqMap) : Option (FreqMap × List Nat) :=
  let scrambled := scrambleTable frequencies
  if containsKey scrambled PSEUDO_EOF then
    some (scrambled,
      natToDecBytes (scrambled.length - 1) ++ 32 :: writeHeaderPairs scrambled)
  else none

/-- The pair-reading loop of `readFileHeader`: `numValues` times, read one
raw symbol byte, an ASCII decimal count, and skip the following space.
Running out of bytes where a symbol byte is required is modelled as
failure (`get()` would return -1, which is not a symbol). -/
def readPairs : Nat → FreqMap → List Nat → Option (FreqMap × List Nat)
  | 0, result, input => some (result, input)
  | n + 1, result, input =>
    match input with
    | [] => none
    | ch :: rest =>
      let r := readInt rest
      readPairs n (mapPut result ch r.1) r.2.tail

/-- `readFileHeader`: read `numValues`, skip one character, read the
pairs, add `PSEUDO_EOF ↦ 1`, descramble.  Returns the table and the
unconsumed remainder of the stream. -/
def readFileHeader (input : List Nat) : Option (FreqMap × List Nat) :=
  let r := readInt input
  match readPairs r.1.toNat [] r.2.tail with
  | none => none
  | some (tbl, rest) =>
    some (descrambleTable (mapPut tbl PSEUDO_EOF 1), rest)

theorem mapPut_append (m : FreqMap) (k : Nat) (v : Int)
    (h : ∀ p ∈ m, p.1 < k) : mapPut m k v = m ++ [(k, v)] := by
  induction m with
  | nil => rfl
  | cons p rest ih =>
    obtain ⟨k0, v0⟩ := p
    have h0 : k0 < k := h (k0, v0) (by simp)
    rw [mapPut, if_neg (by omega), if_neg (by omega), List.cons_append]
    exact congrArg _ (ih fun q hq => h q (by simp [hq]))

/-- A sorted table with keys at most 256 that contains `PSEUDO_EOF`
splits into its byte entries followed by the `PSEUDO_EOF` entry. -/
theorem table_decomp (m : FreqMap) (hs : mapSorted m)
    (hb : ∀ p ∈ m, p.1 ≤ 256) (he : containsKey m PSEUDO_EOF = true) :
    ∃ bp v, m = bp ++ [(PSEUDO_EOF, v)] ∧ ∀ p ∈ bp, p.1 < 256 := by
  induction m with
  | nil => simp [containsKey, assocFind] at he
  | cons p rest ih =>
    obtain ⟨k0, v0⟩ := p
    by_cases hk : k0 = PSEUDO_EOF
    · subst hk
      -- every later key would exceed 256: the tail is empty
      have hrest : rest = [] := by
        cases rest with
        | nil => rfl
        | cons q rest2 =>
          have h1 : PSEUDO_EOF < q.1 :=
            (List.pairwise_cons.1 hs).1 q (by simp)
          have h2 : q.1 ≤ 256 := hb q (by simp)
          unfold PSEUDO_EOF at h1
          omega
      subst hrest
      exact ⟨[], v0, rfl, by simp⟩
    · have he2 : containsKey rest PSEUDO_EOF = true := by
        unfold containsKey assocFind at he
        rw [if_neg (by unfold PSEUDO_EOF at hk ⊢; omega)] at he
        exact he
      obtain ⟨bp, v, hdec, hlt⟩ := ih (List.pairwise_cons.1 hs).2
        (fun q hq => hb q (by simp [hq])) he2
      refine ⟨(k0, v0) :: bp, v, by rw [List.cons_append, hdec], ?_⟩
      intro q hq
      rcases List.mem_cons.1 hq with h | h
      · subst h
        have := hb (k0, v0) (by simp)
        unfold PSEUDO_EOF at hk
        simp only
        omega
      · exact hlt q h

theorem writeHeaderPairs_append_eof (bp : FreqMap) (v : Int) :
    writeHeaderPairs (bp ++ [(PSEUDO_EOF, v)]) = writeHeaderPairs bp := by
  induction bp with
  | nil => simp [writeHeaderPairs]
  | cons p rest ih =>
    obtain ⟨k0, v0⟩ := p
    by_cases hk : k0 = PSEUDO_EOF
    · rw [List.cons_append, writeHeaderPairs, if_pos hk, ih,
        writeHeaderPairs, if_pos hk]
    · rw [List.cons_append, writeHeaderPairs, if_neg hk, ih]
      rw [writeHeaderPairs, if_neg hk]

theorem readPairs_roundtrip (bp : FreqMap) :
    ∀ (acc : FreqMap) (rest : List Nat),
      mapSorted bp →
      (∀ p ∈ bp, p.1 < 256 ∧ 0 ≤ p.2) →
      (∀ p ∈ acc, ∀ q ∈ bp, p.1 < q.1) →
      readPairs bp.length acc (writeHeaderPairs bp ++ rest) =
        some (acc ++ bp, rest) := by
  induction bp with
  | nil => intro acc rest _ _ _; simp [writeHeaderPairs, readPairs]
  | cons p bp' ih =>
    intro acc rest hsbp hbp hacc
    obtain ⟨k, v⟩ := p
    have hk256 : k < 256 := (hbp (k, v) (by simp)).1
    have hkne : ¬ k = PSEUDO_EOF := by unfold PSEUDO_EOF; omega
    rw [writeHeaderPairs, if_neg hkne]
    have hmod : k % 256 = k := Nat.mod_eq_of_lt hk256
    rw [hmod, List.length_cons]
    have hassoc : (k :: (intToDecBytes v ++ 32 :: writeHeaderPairs bp')) ++ rest
        = k :: (intToDecBytes v ++ (32 :: (writeHeaderPairs bp' ++ rest))) := by
      simp
    rw [hassoc, readPairs]
    have hread : readInt (intToDecBytes v ++ (32 :: (writeHeaderPairs bp' ++ rest)))
        = (v, 32 :: (writeHeaderPairs bp' ++ rest)) :=
      readInt_intToDecBytes_nonneg v (hbp (k, v) (by simp)).2 _
        (by intro b hb2; simp at hb2; subst hb2; decide)
    rw [hread]
    simp only [List.tail_cons]
    have hput : mapPut acc k v = acc ++ [(k, v)] :=
      mapPut_append acc k v fun p hp => hacc p hp (k, v) (by simp)
    rw [hput]
    have := ih (acc ++ [(k, v)]) rest (List.pairwise_cons.1 hsbp).2
      (fun q hq => hbp q (by simp [hq]))
      (by
        intro p hp q hq
        rcases List.mem_append.1 hp with h | h
        · exact hacc p h q (by simp [hq])
        · rw [List.mem_singleton] at h
          subst h
          exact (List.pairwise_cons.1 hsbp).1 q hq)
    rw [this]
    simp

theorem scrambleTable_sorted (t : FreqMap) (hs : mapSorted t)
    (hb : ∀ p ∈ t, p.1 ≤ 257) : mapSorted (scrambleTable t) :=
  (scramble_find t false hs hb).1

theorem scrambleTable_find (t : FreqMap) (hs : mapSorted t)
    (hb : ∀ p ∈ t, p.1 ≤ 257) (k : Nat) :
    assocFind (scrambleTable t) k = assocFind t (mirrorKey k) :=
  (scramble_find t false hs hb).2 k

theorem scrambleTable_contains_eof (t : FreqMap) (hs : mapSorted t)
    (hb : ∀ p ∈ t, p.1 ≤ 257) :
    containsKey (scrambleTable t) PSEUDO_EOF = containsKey t PSEUDO_EOF := by
  unfold containsKey
  rw [scrambleTable_find t hs hb PSEUDO_EOF]
  rfl

/-- The header round-trip: writing a valid table and reading the bytes
back (with anything at all appended after the header) returns exactly the
original table and the appended remainder. -/
theorem header_roundtrip (t : FreqMap) (hs : mapSorted t)
    (hb : ∀ p ∈ t, p.1 ≤ 256) (hc : ∀ p ∈ t, 0 ≤ p.2)
    (he : assocFind t PSEUDO_EOF = some 1) (rest : List Nat) :
    writeFileHeader t = some (scrambleTable t,
      natToDecBytes ((scrambleTable t).length - 1) ++ 32 ::
        writeHeaderPairs (scrambleTable t)) ∧
    readFileHeader ((natToDecBytes ((scrambleTable t).length - 1) ++ 32 ::
        writeHeaderPairs (scrambleTable t)) ++ rest) = some (t, rest) := by
  have hb257 : ∀ p ∈ t, p.1 ≤ 257 := fun p hp => by have := hb p hp; omega
  have hms : mapSorted (scrambleTable t) := scrambleTable_sorted t hs hb257
  have hmb : ∀ p ∈ scrambleTable t, p.1 ≤ 256 :=
    scramble_keys_le t false 256 hs hb257 (by omega) hb
  have hmc : ∀ p ∈ scrambleTable t, 0 ≤ p.2 := by
    intro p hp
    exact hc (mirrorKey p.1, p.2) (scramble_values t false hs hb257 p hp)
  have he' : assocFind (scrambleTable t) PSEUDO_EOF = some 1 := by
    rw [scrambleTable_find t hs hb257 PSEUDO_EOF]
    exact he
  have hcont : containsKey (scrambleTable t) PSEUDO_EOF = true := by
    unfold containsKey
    rw [he']
    rfl
  obtain ⟨bp, v, hdec, hbp256⟩ := table_decomp _ hms hmb hcont
  have hv1 : v = 1 := by
    have hmem : (PSEUDO_EOF, v) ∈ scrambleTable t := by
      rw [hdec]; simp
    have := mem_assocFind _ _ _ hms hmem
    rw [he'] at this
    simpa using this.symm
  subst hv1
  have hlen : (scrambleTable t).length - 1 = bp.length := by
    rw [hdec]; simp
  have hwp : writeHeaderPairs (scrambleTable t) = writeHeaderPairs bp := by
    rw [hdec, writeHeaderPairs_append_eof]
  have hbpsorted : mapSorted bp := by
    have := hdec ▸ hms
    exact (List.pairwise_append.1 this).1
  refine ⟨?_, ?_⟩
  · unfold writeFileHeader
    rw [if_pos hcont]
  · have hassoc : (natToDecBytes ((scrambleTable t).length - 1) ++ 32 ::
        writeHeaderPairs (scrambleTable t)) ++ rest =
        natToDecBytes bp.length ++
          (32 :: (writeHeaderPairs bp ++ rest)) := by
      rw [hlen, hwp]; simp
    rw [hassoc]
    unfold readFileHeader
    rw [readInt_natToDecBytes _ _ (by intro b hb2; simp at hb2; subst hb2; decide)]
    simp only [List.tail_cons, Int.toNat_natCast]
    rw [readPairs_roundtrip bp [] rest hbpsorted
      (fun p hp => ⟨hbp256 p hp, hmc p (by rw [hdec]; simp [hp])⟩)
      (by simp)]
    simp only [List.nil_append]
    rw [show mapPut bp PSEUDO_EOF 1 = bp ++ [(PSEUDO_EOF, 1)] from
      mapPut_append bp PSEUDO_EOF 1 (by
        intro p hp
        have := hbp256 p hp
        unfold PSEUDO_EOF
        omega), ← hdec]
    rw [descramble_scramble t hs hb257]

/-! ## Claims C6, C7, C10 on the header serializer -/

/-- C6.  `writeFileHeader` aborts through `error(...)` exactly when the
table it is given lacks `END_OF_STREAM`; on every table containing it,
the call completes and produces the header bytes. -/
theorem C6_writeFileHeader_error_iff (t : FreqMap) (hs : mapSorted t)
    (hb : ∀ p ∈ t, p.1 ≤ 257) :
    (writeFileHeader t = none ↔ containsKey t PSEUDO_EOF = false) ∧
    (containsKey t PSEUDO_EOF = true → ∃ r, writeFileHeader t = some r) := by
  have hcont := scrambleTable_contains_eof t hs hb
  unfold writeFileHeader
  constructor
  · cases hcase : containsKey t PSEUDO_EOF
    · rw [if_neg (by rw [hcont, hcase]; simp)]
      simp
    · rw [if_pos (by rw [hcont, hcase])]
      simp
  · intro hcase
    rw [if_pos (by rw [hcont, hcase])]
    exact ⟨_, rfl⟩

/-- Witness for C6: a table missing `END_OF_STREAM` is rejected, one
containing it is serialized. -/
theorem C6_writeFileHeader_error_iff_witness :
    writeFileHeader [(97, 5)] = none ∧
    ∃ r, writeFileHeader [(97, 5), (256, 1)] = some r :=
  ⟨(C6_writeFileHeader_error_iff [(97, 5)] (by decide) (by decide)).1.mpr
      (by decide),
   (C6_writeFileHeader_error_iff [(97, 5), (256, 1)] (by decide)
      (by decide)).2 (by decide)⟩

/-- C7.  Header round-trip: for every valid frequency table (sorted keys
in `[0,255] ∪ {END_OF_STREAM}`, nonnegative counts, `END_OF_STREAM ↦ 1`),
reading back the bytes written by `writeFileHeader` — followed by an
arbitrary payload — yields the original table and leaves the payload
unconsumed. -/
theorem C7_header_roundtrip (t : FreqMap) (hs : mapSorted t)
    (hb : ∀ p ∈ t, p.1 ≤ 256) (hc : ∀ p ∈ t, 0 ≤ p.2)
    (he : assocFind t PSEUDO_EOF = some 1) (rest : List Nat) :
    (writeFileHeader t).bind (fun r => readFileHeader (r.2 ++ rest)) =
      some (t, rest) := by
  obtain ⟨h1, h2⟩ := header_roundtrip t hs hb hc he rest
  rw [h1]
  exact h2

/-- Witness for C7 at the spec's own example `{'a': 5, 'b': 2}` plus
`END_OF_STREAM ↦ 1`. -/
theorem C7_header_roundtrip_witness :
    (writeFileHeader [(97, 5), (98, 2), (256, 1)]).bind
        (fun r => readFileHeader (r.2 ++ [])) =
      some ([(97, 5), (98, 2), (256, 1)], []) :=
  C7_header_roundtrip [(97, 5), (98, 2), (256, 1)]
    (by decide) (by decide) (by decide) (by decide) []

/-- C10.  `writeFileHeader` mutates its by-reference table argument: after
the call the caller's table is the scrambled table (each byte entry moved
to the complement key), and the scramble is never undone — witnessed by a
table the scramble visibly changes. -/
theorem C10_writeFileHeader_scrambles :
    (∀ t, mapSorted t → (∀ p ∈ t, p.1 ≤ 257) →
      containsKey t PSEUDO_EOF = true →
      (writeFileHeader t).map Prod.fst = some (scrambleTable t) ∧
      ∀ k, assocFind (scrambleTable t) k = assocFind t (mirrorKey k)) ∧
    scrambleTable [(97, 5), (256, 1)] ≠ [(97, 5), (256, 1)] := by
  constructor
  · intro t hs hb he
    have hcont : containsKey (scrambleTable t) PSEUDO_EOF = true := by
      rw [scrambleTable_contains_eof t hs hb, he]
    constructor
    · unfold writeFileHeader
      rw [if_pos hcont]
      rfl
    · exact scrambleTable_find t hs hb
  · decide

/-- Witness for C10's universally quantified part at a concrete table. -/
theorem C10_writeFileHeader_scrambles_witness :
    (writeFileHeader [(97, 5), (256, 1)]).map Prod.fst =
      some (scrambleTable [(97, 5), (256, 1)]) :=
  (C10_writeFileHeader_scrambles.1 [(97, 5), (256, 1)]
    (by decide) (by decide) (by decide)).1

/-! ## The encoding tree (`Node*` of HuffmanTypes) and `buildEncodingTree`
(HuffmanEncoding.cpp lines 72-116) -/

/-- The `Node*` pointer type: `null` is the NULL pointer, `mk` a node
with its `character`, `zero`/`one` child pointers and `weight`. -/
inductive NodeT where
  | null : NodeT
  | mk (character : Nat) (zero : NodeT) (one : NodeT) (weight : Int) : NodeT
deriving DecidableEq

/-- `ptr == NULL`. -/
def isNull : NodeT → Bool
  | .null => true
  | .mk _ _ _ _ => false

/-- `ptr->weight` (only ever read through non-null pointers). -/
def nodeWeight : NodeT → Int
  | .null => 0
  | .mk _ _ _ w => w

/-- Stable extraction of a lowest-priority element from the
`PriorityQueue<Node*>` model: the queue is the list of (element,
priority) pairs in insertion order, and among equal priorities the
earliest enqueued element is dequeued. -/
def pqExtract : List (NodeT × Int) →
    Option ((NodeT × Int) × List (NodeT × Int))
  | [] => none
  | x :: xs =>
    match pqExtract xs with
    | none => some (x, [])
    | some (m, rest) =>
      if x.2 ≤ m.2 then some (x, xs) else some (m, x :: rest)

/-- The merge loop of `buildEncodingTree` (`while (pQueue.size() > 1)`
followed by `pQueue.peek()`), run with the initial queue length as fuel —
the loop body shrinks the queue by one per iteration, so the fuel is
never exhausted before the queue reaches size one.  `peek()` on an empty
queue errors (`none`). -/
def mergeLoop : Nat → List (NodeT × Int) → Option NodeT
  | 0, q => (pqExtract q).map (fun x => x.1.1)
  | fuel + 1, q =>
    match pqExtract q with
    | none => none
    | some (lowest, q1) =>
      match pqExtract q1 with
      | none => some lowest.1
      | some (secondLowest, q2) =>
        let parent : NodeT := .mk NOT_A_CHAR lowest.1 secondLowest.1
          (nodeWeight lowest.1 + nodeWeight secondLowest.1)
        mergeLoop fuel (q2 ++ [(parent, nodeWeight parent)])

/-- `buildEncodingTree`: enqueue one singleton leaf per table entry
(children NULL, weight and priority the table count; the `foreach`
enqueues in ascending key order), then merge down to a single tree. -/
def buildEncodingTree (frequencies : FreqMap) : Option NodeT :=
  let initial := frequencies.map
    (fun p => (NodeT.mk p.1 NodeT.null NodeT.null p.2, p.2))
  mergeLoop initial.length initial

/-- `binaryPrefixsToExtChars` (lines 153-177): the prefix-string →
character decode map, modelled as the (path, character) list produced in
traversal order (its keys are distinct, so association-list lookup is the
map lookup).  The C++ dereferences its argument, so it is never called
on NULL; the model returns the empty map there. -/
def binaryPrefixsToExtChars : NodeT → List Bool → List (List Bool × Nat)
  | .null, _ => []
  | .mk c z o _, soFar =>
    if isNull z && isNull o then [(soFar, c)]
    else
      (if isNull z then []
       else binaryPrefixsToExtChars z (soFar ++ [false])) ++
      (if isNull o then []
       else binaryPrefixsToExtChars o (soFar ++ [true]))

/-- `encTreeToBinaryPrefixes` (lines 196-226): the character →
prefix-string encode map, as the (character, path) list in traversal
order. -/
def encTreeToBinaryPrefixes : NodeT → List Bool → List (Nat × List Bool)
  | .null, _ => []
  | .mk c z o _, soFar =>
    if isNull z && isNull o then [(c, soFar)]
    else
      (if isNull z then []
       else encTreeToBinaryPrefixes z (soFar ++ [false])) ++
      (if isNull o then []
       else encTreeToBinaryPrefixes o (soFar ++ [true]))

/-- Every node of the tree has zero or two children. -/
def fullBinary : NodeT → Bool
  | .null => true
  | .mk _ z o _ => (isNull z == isNull o) && fullBinary z && fullBinary o

/-- The root is an internal node with two children. -/
def internalRoot : NodeT → Bool
  | .null => false
  | .mk _ z o _ => !isNull z && !isNull o

/-- The (character, weight) pairs at the leaves, left to right. -/
def leafEntries : NodeT → List (Nat × Int)
  | .null => []
  | .mk c z o w =>
    if isNull z && isNull o then [(c, w)]
    else leafEntries z ++ leafEntries o

theorem pqExtract_none_iff (q : List (NodeT × Int)) :
    pqExtract q = none ↔ q = [] := by
  cases q with
  | nil => simp [pqExtract]
  | cons x xs =>
    simp only [pqExtract]
    constructor
    · intro h
      cases h2 : pqExtract xs with
      | none => rw [h2] at h; simp at h
      | some m =>
        rw [h2] at h
        by_cases hle : x.2 ≤ m.1.2 <;> simp [hle] at h
    · intro h; simp at h

theorem pqExtract_perm (q : List (NodeT × Int)) :
    ∀ x r, pqExtract q = some (x, r) → q.Perm (x :: r) := by
  induction q with
  | nil => intro x r h; simp [pqExtract] at h
  | cons a xs ih =>
    intro x r h
    simp only [pqExtract] at h
    split at h
    · rename_i h2
      have hxs : xs = [] := (pqExtract_none_iff xs).1 h2
      subst hxs
      simp only [Option.some.injEq, Prod.mk.injEq] at h
      obtain ⟨h1, h3⟩ := h
      subst h1; subst h3
      exact List.Perm.refl _
    · rename_i y rest h2
      by_cases hle : a.2 ≤ y.2
      · rw [if_pos hle] at h
        simp only [Option.some.injEq, Prod.mk.injEq] at h
        obtain ⟨h1, h3⟩ := h
        subst h1; subst h3
        exact List.Perm.refl _
      · rw [if_neg hle] at h
        simp only [Option.some.injEq, Prod.mk.injEq] at h
        obtain ⟨h1, h3⟩ := h
        subst h1; subst h3
        have hperm := ih y rest h2
        exact (hperm.cons a).trans (List.Perm.swap y a rest)

/-- The invariants the merge loop maintains: it terminates with a tree,
the tree is full binary, its root weight is the sum of the queue's
weights, its leaves are the leaves of the queue's trees, the root is
internal when the queue began with at least two trees, and a singleton
queue returns its element unchanged. -/
theorem mergeLoop_inv : ∀ (fuel : Nat) (q : List (NodeT × Int)),
    q.length = fuel → q ≠ [] →
    (∀ x ∈ q, fullBinary x.1 = true ∧ isNull x.1 = false) →
    ∃ t, mergeLoop fuel q = some t ∧
      fullBinary t = true ∧ isNull t = false ∧
      nodeWeight t = (q.map (fun x => nodeWeight x.1)).sum ∧
      (leafEntries t).Perm (q.flatMap (fun x => leafEntries x.1)) ∧
      (2 ≤ q.length → internalRoot t = true) ∧
      (∀ x, q = [x] → t = x.1) := by
  intro fuel
  induction fuel with
  | zero =>
    intro q hlen hne _
    rw [List.length_eq_zero] at hlen
    exact absurd hlen hne
  | succ n ih =>
    intro q hlen hne hfull
    cases hx : pqExtract q with
    | none => exact absurd ((pqExtract_none_iff q).1 hx) hne
    | some p1 =>
      obtain ⟨x, q1⟩ := p1
      have hpermq : q.Perm (x :: q1) := pqExtract_perm q x q1 hx
      cases hy : pqExtract q1 with
      | none =>
        -- the queue held exactly one tree: the loop does not run
        have hq1 : q1 = [] := (pqExtract_none_iff q1).1 hy
        subst hq1
        have hq : q.length = 1 := by simpa using hpermq.length_eq
        have hxq : x ∈ q := hpermq.symm.subset (by simp)
        refine ⟨x.1, ?_, (hfull x hxq).1, (hfull x hxq).2, ?_, ?_, ?_, ?_⟩
        · simp only [mergeLoop, hx, hy]
        · rw [(hpermq.map (fun z => nodeWeight z.1)).sum_eq]
          simp
        · have := hpermq.flatMap_right (fun z => leafEntries z.1)
          simpa using this.symm
        · intro h2; omega
        · intro x' hq'
          have hmem : x ∈ [x'] := hq' ▸ hxq
          have : x = x' := by simpa using hmem
          rw [this]
      | some p2 =>
        obtain ⟨y, q2⟩ := p2
        have hpermq1 : q1.Perm (y :: q2) := pqExtract_perm q1 y q2 hy
        have hperm2 : q.Perm (x :: y :: q2) := hpermq.trans (hpermq1.cons x)
        have hxq : x ∈ q := hperm2.symm.subset (by simp)
        have hyq : y ∈ q := hperm2.symm.subset (by simp)
        have hq2sub : ∀ z ∈ q2, z ∈ q := fun z hz =>
          hperm2.symm.subset (by simp [hz])
        have hlen2 : q2.length + 2 = n + 1 := by
          have h := hperm2.length_eq
          rw [hlen] at h
          simp only [List.length_cons] at h
          omega
        set parent : NodeT := NodeT.mk NOT_A_CHAR x.1 y.1
          (nodeWeight x.1 + nodeWeight y.1) with hparent
        have hxfull := hfull x hxq
        have hyfull := hfull y hyq
        have hparfull : fullBinary parent = true := by
          rw [hparent]
          simp only [fullBinary, hxfull.2, hyfull.2, hxfull.1, hyfull.1]
          rfl
        have hparleaf : leafEntries parent =
            leafEntries x.1 ++ leafEntries y.1 := by
          rw [hparent]
          simp only [leafEntries, hxfull.2]
          rfl
        obtain ⟨t, hmerge, htfull, htnn, htw, htl, htint, htsing⟩ :=
          ih (q2 ++ [(parent, nodeWeight parent)])
            (by simpa using by omega)
            (by simp)
            (by
              intro z hz
              rcases List.mem_append.1 hz with h | h
              · exact hfull z (hq2sub z h)
              · rw [List.mem_singleton] at h
                subst h
                exact ⟨hparfull, by rw [hparent]; rfl⟩)
        refine ⟨t, ?_, htfull, htnn, ?_, ?_, ?_, ?_⟩
        · simp only [mergeLoop, hx, hy]
          exact hmerge
        · rw [htw, (hperm2.map (fun z => nodeWeight z.1)).sum_eq]
          simp only [List.map_append, List.map_cons, List.sum_append,
            List.sum_cons, List.map_nil, List.sum_nil]
          rw [hparent]
          simp only [nodeWeight]
          ring
        · refine htl.trans ?_
          have hq2 := (hperm2.flatMap_right
            (fun z => leafEntries z.1)).symm
          refine List.Perm.trans ?_ hq2
          simp only [List.flatMap_append, List.flatMap_cons,
            List.flatMap_nil, List.append_nil, hparleaf]
          exact (List.perm_append_comm ..).trans (by
            rw [List.append_assoc])
        · intro _
          rcases Nat.lt_or_ge (q2 ++ [(parent, nodeWeight parent)]).length 2
            with hs | hb
          · have hq2nil : q2 = [] := by
              simp only [List.length_append, List.length_singleton] at hs
              rw [List.length_eq_zero.symm]
              omega
            subst hq2nil
            rw [htsing (parent, nodeWeight parent) (by simp)]
            rw [hparent]
            simp only [internalRoot, hxfull.2, hyfull.2]
            rfl
          · exact htint hb
        · intro x' hq'
          exfalso
          have : q.length = 1 := by rw [hq']; rfl
          omega

/-- The tree `buildEncodingTree` returns on a nonempty table: full
binary, root weight the sum of the counts, leaves exactly the table
entries, internal root as soon as the table has two entries, and the
lone unwrapped leaf on a singleton table. -/
theorem buildEncodingTree_props (ft : FreqMap) (hne : ft ≠ []) :
    ∃ t, buildEncodingTree ft = some t ∧
      fullBinary t = true ∧ isNull t = false ∧
      nodeWeight t = (ft.map Prod.snd).sum ∧
      (leafEntries t).Perm ft ∧
      (2 ≤ ft.length → internalRoot t = true) ∧
      (∀ p, ft = [p] → t = NodeT.mk p.1 NodeT.null NodeT.null p.2) := by
  have hinit : (ft.map (fun p => (NodeT.mk p.1 NodeT.null NodeT.null p.2, p.2))) ≠
      [] := by
    simpa using hne
  obtain ⟨t, hmerge, htfull, htnn, htw, htl, htint, htsing⟩ :=
    mergeLoop_inv _ _ rfl hinit (by
      intro x hx
      obtain ⟨p, hp, hpx⟩ := List.mem_map.1 hx
      rw [← hpx]
      exact ⟨rfl, rfl⟩)
  refine ⟨t, hmerge, htfull, htnn, ?_, ?_, ?_, ?_⟩
  · rw [htw, List.map_map]
    congr 1
  · refine htl.trans ?_
    rw [List.flatMap_map]
    have heq : (fun a : Nat × Int =>
        leafEntries (NodeT.mk a.1 NodeT.null NodeT.null a.2, a.2).1) =
        fun a : Nat × Int => [a] := by
      funext a
      simp [leafEntries, isNull]
    rw [heq]
    have hid : List.flatMap ft (fun a => [a]) = ft := by
      induction ft with
      | nil => rfl
      | cons p rest ih => simp [List.flatMap_cons, ih]
    rw [hid]
  · intro h2
    exact htint (by simpa using h2)
  · intro p hp
    have := htsing (NodeT.mk p.1 NodeT.null NodeT.null p.2, p.2)
      (by rw [hp]; rfl)
    exact this

/-! ## Generic association lookup for the prefix tables -/

/-- Association-list lookup for the `Map<string, ext_char>` and
`Map<ext_char, string>` prefix tables built by the tree traversals (their
keys are distinct, so the list stands for the map). -/
def lookupA {α β : Type} [DecidableEq α] : List (α × β) → α → Option β
  | [], _ => none
  | (k, v) :: rest, key => if key = k then some v else lookupA rest key

theorem lookupA_eq_none {α β : Type} [DecidableEq α]
    (l : List (α × β)) (k : α) (h : ∀ p ∈ l, p.1 ≠ k) :
    lookupA l k = none := by
  induction l with
  | nil => rfl
  | cons p rest ih =>
    obtain ⟨k0, v0⟩ := p
    rw [lookupA, if_neg (fun hh => h (k0, v0) (by simp) (by simp [hh]))]
    exact ih fun q hq => h q (by simp [hq])

theorem lookupA_mem {α β : Type} [DecidableEq α]
    {l : List (α × β)} {k : α} {v : β} (h : lookupA l k = some v) :
    (k, v) ∈ l := by
  induction l with
  | nil => simp [lookupA] at h
  | cons p rest ih =>
    obtain ⟨k0, v0⟩ := p
    by_cases hk : k = k0
    · subst hk
      have hv : v0 = v := by simpa [lookupA] using h
      subst hv; simp
    · rw [lookupA, if_neg hk] at h
      exact List.mem_cons_of_mem _ (ih h)

theorem mem_lookupA {α β : Type} [DecidableEq α]
    {l : List (α × β)} {k : α} {v : β}
    (hnd : (l.map Prod.fst).Nodup) (h : (k, v) ∈ l) :
    lookupA l k = some v := by
  induction l with
  | nil => simp at h
  | cons p rest ih =>
    obtain ⟨k0, v0⟩ := p
    rcases List.mem_cons.1 h with h1 | h1
    · obtain ⟨h2, h3⟩ := Prod.mk.injEq .. ▸ h1
      subst h2; subst h3
      simp [lookupA]
    · have hk : k ≠ k0 := by
        intro hh
        subst hh
        have : k ∈ rest.map Prod.fst := List.mem_map.2 ⟨(k, v), h1, rfl⟩
        exact (List.nodup_cons.1 (by simpa using hnd)).1 this
      rw [lookupA, if_neg hk]
      exact ih (List.nodup_cons.1 (by simpa using hnd)).2 h1

/-! ## Properties of the two prefix-table traversals -/

/-- The decode table is the encode table with each pair swapped: the two
traversals visit the same leaves in the same order. -/
theorem binaryPrefixs_eq_swap : ∀ (t : NodeT) (pre : List Bool),
    binaryPrefixsToExtChars t pre =
      (encTreeToBinaryPrefixes t pre).map (fun p => (p.2, p.1)) := by
  intro t
  induction t with
  | null => intro pre; rfl
  | mk c z o w ihz iho =>
    intro pre
    rw [binaryPrefixsToExtChars, encTreeToBinaryPrefixes]
    by_cases hzo : isNull z && isNull o
    · rw [if_pos hzo, if_pos hzo]
      rfl
    · rw [if_neg hzo, if_neg hzo, List.map_append]
      congr 1
      · by_cases hz : isNull z
        · rw [if_pos hz, if_pos hz]
          rfl
        · rw [if_neg hz, if_neg hz, ihz]
      · by_cases ho : isNull o
        · rw [if_pos ho, if_pos ho]
          rfl
        · rw [if_neg ho, if_neg ho, iho]

/-- The characters listed by the encode traversal are the leaf
characters, in order. -/
theorem encPrefixes_chars : ∀ (t : NodeT) (pre : List Bool),
    (encTreeToBinaryPrefixes t pre).map Prod.fst =
      (leafEntries t).map Prod.fst := by
  intro t
  induction t with
  | null => intro pre; rfl
  | mk c z o w ihz iho =>
    intro pre
    rw [encTreeToBinaryPrefixes, leafEntries]
    by_cases hzo : isNull z && isNull o
    · rw [if_pos hzo, if_pos hzo]
      rfl
    · rw [if_neg hzo, if_neg hzo, List.map_append, List.map_append]
      congr 1
      · by_cases hz : isNull z
        · rw [if_pos hz]
          cases z with
          | null => rfl
          | mk _ _ _ _ => simp [isNull] at hz
        · rw [if_neg hz, ihz]
      · by_cases ho : isNull o
        · rw [if_pos ho]
          cases o with
          | null => rfl
          | mk _ _ _ _ => simp [isNull] at ho
        · rw [if_neg ho, iho]

/-- Every path the encode traversal produces extends the accumulated
prefix. -/
theorem encPrefixes_extends : ∀ (t : NodeT) (pre : List Bool),
    ∀ p ∈ encTreeToBinaryPrefixes t pre, pre <+: p.2 := by
  intro t
  induction t with
  | null => intro pre p hp; simp [encTreeToBinaryPrefixes] at hp
  | mk c z o w ihz iho =>
    intro pre p hp
    rw [encTreeToBinaryPrefixes] at hp
    by_cases hzo : isNull z && isNull o
    · rw [if_pos hzo] at hp
      rw [List.mem_singleton] at hp
      subst hp
      exact List.prefix_refl _
    · rw [if_neg hzo] at hp
      have hstep : ∀ (b : Bool), (pre ++ [b]) <+: p.2 → pre <+: p.2 :=
        fun b h => (List.prefix_append pre [b]).trans h
      rcases List.mem_append.1 hp with h | h
      · by_cases hz : isNull z
        · rw [if_pos hz] at h; simp at h
        · rw [if_neg hz] at h
          exact hstep false (ihz (pre ++ [false]) p h)
      · by_cases ho : isNull o
        · rw [if_pos ho] at h; simp at h
        · rw [if_neg ho] at h
          exact hstep true (iho (pre ++ [true]) p h)

/-- No two paths of the encode traversal are prefixes of one another:
within one subtree by induction, across the two subtrees because the
paths diverge right after the shared prefix. -/
theorem encPrefixes_pairwise : ∀ (t : NodeT) (pre : List Bool),
    List.Pairwise (fun a b : Nat × List Bool =>
      ¬ a.2 <+: b.2 ∧ ¬ b.2 <+: a.2) (encTreeToBinaryPrefixes t pre) := by
  intro t
  induction t with
  | null => intro pre; simp [encTreeToBinaryPrefixes]
  | mk c z o w ihz iho =>
    intro pre
    rw [encTreeToBinaryPrefixes]
    by_cases hzo : isNull z && isNull o
    · rw [if_pos hzo]
      simp
    · rw [if_neg hzo]
      have hcross : ∀ x ∈ (if isNull z then []
            else encTreeToBinaryPrefixes z (pre ++ [false])),
          ∀ y ∈ (if isNull o then []
            else encTreeToBinaryPrefixes o (pre ++ [true])),
          ¬ x.2 <+: y.2 ∧ ¬ y.2 <+: x.2 := by
        intro x hx y hy
        by_cases hz : isNull z
        · rw [if_pos hz] at hx; simp at hx
        · by_cases ho : isNull o
          · rw [if_pos ho] at hy; simp at hy
          · rw [if_neg hz] at hx
            rw [if_neg ho] at hy
            have hxp : (pre ++ [false]) <+: x.2 :=
              encPrefixes_extends z (pre ++ [false]) x hx
            have hyp : (pre ++ [true]) <+: y.2 :=
              encPrefixes_extends o (pre ++ [true]) y hy
            constructor
            · intro hxy
              have h1 : (pre ++ [false]) <+: y.2 := hxp.trans hxy
              have h2 : (pre ++ [false]) <+: (pre ++ [true]) :=
                List.prefix_of_prefix_length_le h1 hyp (by simp)
              have h3 := h2.eq_of_length_le (by simp)
              simp at h3
            · intro hyx
              have h1 : (pre ++ [true]) <+: x.2 := hyp.trans hyx
              have h2 : (pre ++ [true]) <+: (pre ++ [false]) :=
                List.prefix_of_prefix_length_le h1 hxp (by simp)
              have h3 := h2.eq_of_length_le (by simp)
              simp at h3
      refine List.pairwise_append.2 ⟨?_, ?_, hcross⟩
      · by_cases hz : isNull z
        · rw [if_pos hz]; simp
        · rw [if_neg hz]
          exact ihz (pre ++ [false])
      · by_cases ho : isNull o
        · rw [if_pos ho]; simp
        · rw [if_neg ho]
          exact iho (pre ++ [true])

/-- Prefix-freeness forces the path keys to be distinct. -/
theorem encPrefixes_paths_nodup (t : NodeT) (pre : List Bool) :
    ((encTreeToBinaryPrefixes t pre).map Prod.snd).Nodup := by
  show List.Pairwise _ _
  rw [List.pairwise_map]
  refine (encPrefixes_pairwise t pre).imp ?_
  intro a b h he
  exact h.1 (he ▸ List.prefix_refl _)

/-- With an internal root, every derived code starts with the branch bit
of its subtree, so no code is empty. -/
theorem encPrefixes_nonempty (t : NodeT) (hroot : internalRoot t = true) :
    ∀ p ∈ encTreeToBinaryPrefixes t [], p.2 ≠ [] := by
  intro p hp
  cases t with
  | null => simp [internalRoot] at hroot
  | mk c z o w =>
    simp only [internalRoot, Bool.and_eq_true, Bool.not_eq_true'] at hroot
    rw [encTreeToBinaryPrefixes, if_neg (by rw [hroot.1]; simp),
      if_neg (by rw [hroot.1]; simp), if_neg (by rw [hroot.2]; simp)] at hp
    rcases List.mem_append.1 hp with h | h
    · have := encPrefixes_extends z [false] p h
      intro hnil
      rw [hnil] at this
      simpa using this.length_le
    · have := encPrefixes_extends o [true] p h
      intro hnil
      rw [hnil] at this
      simpa using this.length_le

/-! ## Claims C9 and C4 (counterexample part) on the tree builder -/

/-- C9.  For every valid non-empty frequency table the built tree exists,
its root weight is the sum of all counts, it has exactly one leaf per
distinct table symbol (the leaf multiset is a permutation of the table
and the leaf characters are distinct), every node has 0 or 2 children,
and no code derived by `encTreeToBinaryPrefixes` is a prefix of another. -/
theorem C9_tree_invariants (ft : FreqMap) (hs : mapSorted ft) (hne : ft ≠ []) :
    ∃ t, buildEncodingTree ft = some t ∧
      nodeWeight t = (ft.map Prod.snd).sum ∧
      (leafEntries t).Perm ft ∧
      ((leafEntries t).map Prod.fst).Nodup ∧
      fullBinary t = true ∧
      List.Pairwise (fun a b : Nat × List Bool =>
        ¬ a.2 <+: b.2 ∧ ¬ b.2 <+: a.2) (encTreeToBinaryPrefixes t []) := by
  obtain ⟨t, hbuild, hfull, hnn, hw, hl, hint, hsing⟩ :=
    buildEncodingTree_props ft hne
  refine ⟨t, hbuild, hw, hl, ?_, hfull, encPrefixes_pairwise t []⟩
  have hperm : ((leafEntries t).map Prod.fst).Perm (ft.map Prod.fst) :=
    hl.map _
  refine hperm.nodup_iff.2 ?_
  show List.Pairwise _ _
  exact (keysOf_pairwise ft hs).imp fun h => by omega

/-- Witness for C9 at the table `{'a': 2, END_OF_STREAM: 1}`. -/
theorem C9_tree_invariants_witness :
    ∃ t, buildEncodingTree [(97, 2), (256, 1)] = some t ∧
      nodeWeight t = ([((97 : Nat), (2 : Int)), (256, 1)].map Prod.snd).sum ∧
      (leafEntries t).Perm [(97, 2), (256, 1)] ∧
      ((leafEntries t).map Prod.fst).Nodup ∧
      fullBinary t = true ∧
      List.Pairwise (fun a b : Nat × List Bool =>
        ¬ a.2 <+: b.2 ∧ ¬ b.2 <+: a.2) (encTreeToBinaryPrefixes t []) :=
  C9_tree_invariants [(97, 2), (256, 1)] (by decide) (by decide)

/-- Counterexample to C4 as stated: on the table containing only
`END_OF_STREAM`, `buildEncodingTree` returns the lone leaf itself — no
synthetic internal node is wrapped around it — and the derived code for
`END_OF_STREAM` is the EMPTY bitstring, not a non-empty one. -/
theorem C4_lone_leaf_counterexample :
    buildEncodingTree [(PSEUDO_EOF, 1)] =
      some (NodeT.mk PSEUDO_EOF NodeT.null NodeT.null 1) ∧
    encTreeToBinaryPrefixes (NodeT.mk PSEUDO_EOF NodeT.null NodeT.null 1) [] =
      [(PSEUDO_EOF, [])] := by
  constructor
  · rfl
  · rfl

/-! ## The bit-level codec (`encodeFile` lines 265-300, `decodeFile`
lines 314-359) and the byte/bit stream capability -/

/-- `encodeFile`: derive the prefix table, then for each input byte write
its prefix bit by bit (`writeEncodingPrefix` emits one bit per prefix
character), and finally write `PSEUDO_EOF`'s prefix.  `Map::get` yields
the empty string for a symbol missing from the table. -/
def encodeFile (infile : List Nat) (encodingTree : NodeT) : List Bool :=
  let prefixes := encTreeToBinaryPrefixes encodingTree []
  (infile.flatMap fun b => (lookupA prefixes (toExtChar b)).getD []) ++
    (lookupA prefixes PSEUDO_EOF).getD []

/-- The decode loop of `decodeFile`: `while (numBitsRead <= numBits)`
runs at most `numBits + 1` iterations (the fuel), each reading one bit
(`readBit()` past the end of the stream returns -1, which the `if ... == 0`
takes to the '1' branch), growing the candidate prefix; on a table hit
the prefix resets and the character is emitted (`put(char c)` truncates
to a byte) unless it is `PSEUDO_EOF`, which breaks out.  Returns the
output bytes together with the number of bits read. -/
def decodeLoop (extChars : List (List Bool × Nat)) :
    Nat → List Bool → List Bool → List Nat → List Nat × Nat
  | 0, _, _, out => (out, 0)
  | fuel + 1, bits, nextPrefix, out =>
    let b := bits.headD true
    let grown := nextPrefix ++ [b]
    match lookupA extChars grown with
    | some c =>
      if c = PSEUDO_EOF then (out, 1)
      else
        let r := decodeLoop extChars fuel bits.tail [] (out ++ [c % 256])
        (r.1, r.2 + 1)
    | none =>
      let r := decodeLoop extChars fuel bits.tail grown out
      (r.1, r.2 + 1)

/-- `decodeFile`: build the prefix → character table and run the loop.
`numBits` stands for `infile.size() * 8`, computed by the caller from
the total byte size of the stream; `bits` is the remaining bit stream. -/
def decodeFile (encodingTree : NodeT) (numBits : Nat) (bits : List Bool) :
    List Nat × Nat :=
  decodeLoop (binaryPrefixsToExtChars encodingTree []) (numBits + 1) bits [] []

/-- One byte of the obstream bit sink: the accumulated bits of a byte,
first written bit most significant. -/
def bitsToByte (bs : List Bool) : Nat :=
  bs.foldl (fun a b => 2 * a + (if b then 1 else 0)) 0

/-- The obstream packs written bits into bytes eight at a time, padding
the final partial byte with 0 bits.  Fuel-driven recursion (the fuel is
the bit count, consumed at eight per step). -/
def packBitsAux : Nat → List Bool → List Nat
  | 0, _ => []
  | fuel + 1, bits =>
    if bits = [] then []
    else
      bitsToByte (bits.take 8 ++
          List.replicate (8 - (bits.take 8).length) false) ::
        packBitsAux fuel (bits.drop 8)

/-- Pack a bit stream into bytes. -/
def packBits (bits : List Bool) : List Nat := packBitsAux bits.length bits

/-- The ibstream unpacks each byte into its eight bits, most significant
first. -/
def byteToBits (n : Nat) : List Bool :=
  (List.range 8).map fun i => decide (n / 2 ^ (7 - i) % 2 = 1)

/-- Unpack a byte stream into the bit stream it carries. -/
def unpackBits (bytes : List Nat) : List Bool := bytes.flatMap byteToBits

/-- `compress` (lines 555-576): build the frequency table, build the
tree from it, write the header (which scrambles the table in place — the
tree was already built from the unscrambled counts), then encode the
rewound input; the output file is the header bytes followed by the
packed payload bits. -/
def compress (infile : List Nat) : Option (List Nat) :=
  let freqTable := getFrequencyTable infile
  match buildEncodingTree freqTable with
  | none => none
  | some encodingTree =>
    match writeFileHeader freqTable with
    | none => none
    | some r => some (r.2 ++ packBits (encodeFile infile encodingTree))

/-- `decompress` (lines 590-604): read the header back, rebuild the
tree, then decode the remaining bits; `decodeFile` bounds its reads by
`infile.size() * 8`, the total byte size of the whole file times 8. -/
def decompress (infile : List Nat) : Option (List Nat) :=
  match readFileHeader infile with
  | none => none
  | some r =>
    match buildEncodingTree r.1 with
    | none => none
    | some encodingTree =>
      some (decodeFile encodingTree (infile.length * 8) (unpackBits r.2)).1

/-! ## Decode correctness -/

/-- Walking the decode loop over one complete code (with the table hit
only at the full code, guaranteed by prefix-freeness): the loop consumes
exactly the code's bits and either stops (at `PSEUDO_EOF`) or emits the
character and continues fresh on the remaining bits. -/
theorem decodeLoop_code (tbl : List (List Bool × Nat)) (code : List Bool)
    (c : Nat) (hfind : lookupA tbl code = some c)
    (hproper : ∀ pre, pre <+: code → pre ≠ code → lookupA tbl pre = none) :
    ∀ (suffix : List Bool), suffix ≠ [] →
    ∀ (acc : List Bool), acc ++ suffix = code →
    ∀ (fuel : Nat), suffix.length ≤ fuel →
    ∀ (bits : List Bool) (out : List Nat),
      decodeLoop tbl fuel (suffix ++ bits) acc out =
        if c = PSEUDO_EOF then (out, suffix.length)
        else
          ((decodeLoop tbl (fuel - suffix.length) bits [] (out ++ [c % 256])).1,
           (decodeLoop tbl (fuel - suffix.length) bits [] (out ++ [c % 256])).2 +
             suffix.length) := by
  intro suffix
  induction suffix with
  | nil => intro h; exact absurd rfl h
  | cons b rest ih =>
    intro _ acc hacc fuel hfuel bits out
    have hf1 : ∃ f, fuel = f + 1 := by
      refine ⟨fuel - 1, ?_⟩
      simp only [List.length_cons] at hfuel
      omega
    obtain ⟨f, rfl⟩ := hf1
    cases rest with
    | nil =>
      simp only [decodeLoop, List.cons_append, List.nil_append,
        List.headD_cons, List.tail_cons]
      have hgrown : acc ++ [b] = code := by simpa using hacc
      rw [hgrown]
      simp only [hfind]
      by_cases hc : c = PSEUDO_EOF
      · rw [if_pos hc, if_pos hc]
        rfl
      · rw [if_neg hc, if_neg hc]
        simp
    | cons b2 rest2 =>
      simp only [decodeLoop, List.cons_append, List.headD_cons,
        List.tail_cons]
      have hne : acc ++ [b] ≠ code := by
        intro h
        have hl := congrArg List.length h
        rw [← hacc] at hl
        simp at hl
      have hpre : (acc ++ [b]) <+: code := by
        rw [← hacc, show acc ++ b :: b2 :: rest2 =
          (acc ++ [b]) ++ (b2 :: rest2) by simp]
        exact ⟨b2 :: rest2, rfl⟩
      rw [hproper _ hpre hne]
      simp only
      have hfuel2 : (b2 :: rest2).length ≤ f := by
        simp only [List.length_cons] at hfuel ⊢
        omega
      have hrec := ih (by simp) (acc ++ [b]) (by simpa using hacc) f
        hfuel2 bits out
      rw [List.cons_append] at hrec
      rw [hrec]
      by_cases hc : c = PSEUDO_EOF
      · rw [if_pos hc, if_pos hc]
        simp
      · rw [if_neg hc, if_neg hc]
        have hlen : f - (b2 :: rest2).length =
            f + 1 - (b :: b2 :: rest2).length := by
          simp only [List.length_cons]
          omega
        rw [hlen]
        simp only [List.length_cons]
        rw [Prod.mk.injEq]
        exact ⟨rfl, by omega⟩

/-- The decode loop over the encoded form of a symbol sequence followed
by `PSEUDO_EOF`'s code and arbitrary junk: it outputs exactly the
symbols (truncated to bytes) and reads exactly the payload bits. -/
theorem decodeLoop_stream (tbl : List (List Bool × Nat))
    (codeOf : Nat → List Bool)
    (heof : lookupA tbl (codeOf PSEUDO_EOF) = some PSEUDO_EOF ∧
      codeOf PSEUDO_EOF ≠ [] ∧
      ∀ pre, pre <+: codeOf PSEUDO_EOF → pre ≠ codeOf PSEUDO_EOF →
        lookupA tbl pre = none) :
    ∀ (syms : List Nat),
      (∀ s ∈ syms, lookupA tbl (codeOf s) = some s ∧ codeOf s ≠ [] ∧
        s ≠ PSEUDO_EOF ∧
        ∀ pre, pre <+: codeOf s → pre ≠ codeOf s → lookupA tbl pre = none) →
    ∀ (fuel : Nat),
      (syms.flatMap codeOf).length + (codeOf PSEUDO_EOF).length ≤ fuel →
    ∀ (junk : List Bool) (out : List Nat),
      decodeLoop tbl fuel
          ((syms.flatMap codeOf ++ codeOf PSEUDO_EOF) ++ junk) [] out =
        (out ++ syms.map (· % 256),
         (syms.flatMap codeOf).length + (codeOf PSEUDO_EOF).length) := by
  intro syms
  induction syms with
  | nil =>
    intro _ fuel hfuel junk out
    simp only [List.flatMap_nil, List.nil_append, List.length_nil,
      Nat.zero_add] at hfuel ⊢
    rw [decodeLoop_code tbl (codeOf PSEUDO_EOF) PSEUDO_EOF heof.1 heof.2.2
      (codeOf PSEUDO_EOF) heof.2.1 [] rfl fuel hfuel junk out]
    rw [if_pos rfl]
    simp
  | cons s rest ih =>
    intro hsym fuel hfuel junk out
    obtain ⟨hfind, hne, hnoteof, hproper⟩ := hsym s (by simp)
    have hstream : ((s :: rest).flatMap codeOf ++ codeOf PSEUDO_EOF) ++ junk =
        codeOf s ++ ((rest.flatMap codeOf ++ codeOf PSEUDO_EOF) ++ junk) := by
      simp [List.flatMap_cons]
    rw [hstream]
    have hlen : (codeOf s).length ≤ fuel := by
      simp only [List.flatMap_cons, List.length_append] at hfuel
      omega
    rw [decodeLoop_code tbl (codeOf s) s hfind hproper (codeOf s) hne []
      rfl fuel hlen _ out]
    rw [if_neg hnoteof]
    have hfuel2 : (rest.flatMap codeOf).length + (codeOf PSEUDO_EOF).length ≤
        fuel - (codeOf s).length := by
      simp only [List.flatMap_cons, List.length_append] at hfuel
      omega
    have hrec := ih (fun x hx => hsym x (by simp [hx]))
      (fuel - (codeOf s).length) hfuel2 junk (out ++ [s % 256])
    rw [hrec]
    simp only [List.flatMap_cons, List.length_append, List.map_cons]
    rw [Prod.mk.injEq]
    exact ⟨by simp, by omega⟩

/-- The encode and decode tables around one leaf character: the encode
lookup yields its code, the decode lookup inverts it, no proper prefix
of the code is a decode key, and the code is non-empty when the root is
internal. -/
theorem tree_table_facts (t : NodeT)
    (hnd : ((leafEntries t).map Prod.fst).Nodup)
    (c : Nat) (hc : c ∈ (leafEntries t).map Prod.fst) :
    ∃ code, lookupA (encTreeToBinaryPrefixes t []) c = some code ∧
      lookupA (binaryPrefixsToExtChars t []) code = some c ∧
      (∀ pre, pre <+: code → pre ≠ code →
        lookupA (binaryPrefixsToExtChars t []) pre = none) ∧
      (internalRoot t = true → code ≠ []) := by
  have hchars : (encTreeToBinaryPrefixes t []).map Prod.fst =
      (leafEntries t).map Prod.fst := encPrefixes_chars t []
  have hmem : c ∈ (encTreeToBinaryPrefixes t []).map Prod.fst := by
    rw [hchars]; exact hc
  obtain ⟨p, hp, hpc⟩ := List.mem_map.1 hmem
  obtain ⟨c1, code⟩ := p
  simp only at hpc
  subst hpc
  have hndet : ((encTreeToBinaryPrefixes t []).map Prod.fst).Nodup := by
    rw [hchars]; exact hnd
  have hfind : lookupA (encTreeToBinaryPrefixes t []) c1 = some code :=
    mem_lookupA hndet hp
  have hswap := binaryPrefixs_eq_swap t []
  have hdnd : (((encTreeToBinaryPrefixes t []).map
      (fun p => (p.2, p.1))).map Prod.fst).Nodup := by
    rw [List.map_map]
    exact encPrefixes_paths_nodup t []
  refine ⟨code, hfind, ?_, ?_, ?_⟩
  · rw [hswap]
    exact mem_lookupA hdnd (List.mem_map.2 ⟨(c1, code), hp, rfl⟩)
  · intro pre hpre hne
    rw [hswap]
    apply lookupA_eq_none
    intro q hq hqpre
    obtain ⟨q0, hq0, hq0e⟩ := List.mem_map.1 hq
    -- `q0` is an encode entry whose path is `pre`, a proper prefix of `code`
    have hq0pre : q0.2 = pre := by rw [← hq0e] at hqpre; exact hqpre
    have hq0ne : q0 ≠ (c1, code) := by
      intro h
      rw [h] at hq0pre
      exact hne hq0pre.symm
    have hrel := List.Pairwise.forall
      (by
        intro a b hab
        exact ⟨hab.2, hab.1⟩)
      (encPrefixes_pairwise t []) hq0 hp hq0ne
    exact hrel.1 (hq0pre ▸ hpre)
  · intro hroot hcode
    exact encPrefixes_nonempty t hroot (c1, code) hp (by simpa using hcode)

/-! ## The byte-packing round-trip for the bit stream -/

theorem byteToBits_bitsToByte_eight :
    ∀ (b0 b1 b2 b3 b4 b5 b6 b7 : Bool),
      byteToBits (bitsToByte [b0, b1, b2, b3, b4, b5, b6, b7]) =
        [b0, b1, b2, b3, b4, b5, b6, b7] := by decide

theorem byteToBits_bitsToByte (bs : List Bool) (h : bs.length = 8) :
    byteToBits (bitsToByte bs) = bs := by
  obtain ⟨b0, bs, rfl⟩ := List.exists_of_length_succ bs (n := 7) (by omega)
  simp only [List.length_cons] at h
  obtain ⟨b1, bs, rfl⟩ := List.exists_of_length_succ bs (n := 6) (by omega)
  simp only [List.length_cons] at h
  obtain ⟨b2, bs, rfl⟩ := List.exists_of_length_succ bs (n := 5) (by omega)
  simp only [List.length_cons] at h
  obtain ⟨b3, bs, rfl⟩ := List.exists_of_length_succ bs (n := 4) (by omega)
  simp only [List.length_cons] at h
  obtain ⟨b4, bs, rfl⟩ := List.exists_of_length_succ bs (n := 3) (by omega)
  simp only [List.length_cons] at h
  obtain ⟨b5, bs, rfl⟩ := List.exists_of_length_succ bs (n := 2) (by omega)
  simp only [List.length_cons] at h
  obtain ⟨b6, bs, rfl⟩ := List.exists_of_length_succ bs (n := 1) (by omega)
  simp only [List.length_cons] at h
  obtain ⟨b7, bs, rfl⟩ := List.exists_of_length_succ bs (n := 0) (by omega)
  simp only [List.length_cons] at h
  have hnil : bs = [] := by
    rw [List.length_eq_zero.symm]
    omega
  subst hnil
  exact byteToBits_bitsToByte_eight b0 b1 b2 b3 b4 b5 b6 b7

theorem packBitsAux_nil : ∀ f, packBitsAux f [] = [] := by
  intro f
  cases f with
  | zero => rfl
  | succ g => rw [packBitsAux, if_pos rfl]

theorem packBitsAux_fuel : ∀ (f1 : Nat) (bits : List Bool) (f2 : Nat),
    bits.length ≤ f1 → bits.length ≤ f2 →
    packBitsAux f1 bits = packBitsAux f2 bits := by
  intro f1
  induction f1 with
  | zero =>
    intro bits f2 h1 _
    have : bits = [] := by
      rw [List.length_eq_zero.symm]
      omega
    subst this
    rw [packBitsAux_nil, packBitsAux_nil]
  | succ g1 ih =>
    intro bits f2 h1 h2
    by_cases hnil : bits = []
    · subst hnil
      rw [packBitsAux_nil, packBitsAux_nil]
    · have hlen1 : 1 ≤ bits.length := by
        cases bits with
        | nil => exact absurd rfl hnil
        | cons _ _ => simp
      obtain ⟨g2, rfl⟩ : ∃ g2, f2 = g2 + 1 := ⟨f2 - 1, by omega⟩
      rw [packBitsAux, packBitsAux, if_neg hnil, if_neg hnil]
      refine congrArg _ (ih (bits.drop 8) g2 ?_ ?_)
      · rw [List.length_drop]
        omega
      · rw [List.length_drop]
        omega

theorem unpackBits_length (bytes : List Nat) :
    (unpackBits bytes).length = 8 * bytes.length := by
  induction bytes with
  | nil => rfl
  | cons b rest ih =>
    show (byteToBits b ++ unpackBits rest).length = _
    rw [List.length_append, ih,
      show (byteToBits b).length = 8 from by rw [byteToBits]; simp]
    simp only [List.length_cons]
    omega

/-- Unpacking the packed bit stream gives the bits back, followed by the
zero padding of the final partial byte. -/
theorem unpack_pack : ∀ (n : Nat) (bits : List Bool), bits.length = n →
    unpackBits (packBits bits) =
      bits ++ List.replicate ((8 - bits.length % 8) % 8) false := by
  intro n
  induction n using Nat.strong_induction_on with
  | _ n ih =>
    intro bits hlen
    by_cases hnil : bits = []
    · subst hnil
      rfl
    · have hlen1 : 1 ≤ bits.length := by
        cases bits with
        | nil => exact absurd rfl hnil
        | cons _ _ => simp
      obtain ⟨m, hm⟩ : ∃ m, bits.length = m + 1 := ⟨bits.length - 1, by omega⟩
      have hpack : packBits bits =
          bitsToByte (bits.take 8 ++
            List.replicate (8 - (bits.take 8).length) false) ::
          packBitsAux m (bits.drop 8) := by
        rw [packBits, hm, packBitsAux, if_neg hnil]
      rw [hpack]
      have hdrop : packBitsAux m (bits.drop 8) = packBits (bits.drop 8) := by
        apply packBitsAux_fuel
        · rw [List.length_drop]; omega
        · exact le_refl _
      rw [hdrop]
      rw [unpackBits, List.flatMap_cons]
      have hpadlen : (bits.take 8 ++
          List.replicate (8 - (bits.take 8).length) false).length = 8 := by
        simp only [List.length_append, List.length_replicate, List.length_take]
        omega
      rw [byteToBits_bitsToByte _ hpadlen]
      show (bits.take 8 ++ List.replicate (8 - (bits.take 8).length) false) ++
        unpackBits (packBits (bits.drop 8)) = _
      by_cases h8 : bits.length ≤ 8
      · -- the final (possibly partial) byte
        have hdropnil : bits.drop 8 = [] := by
          rw [List.drop_eq_nil_iff]
          omega
        have htake : bits.take 8 = bits := List.take_of_length_le h8
        rw [hdropnil, htake]
        rw [show unpackBits (packBits []) = [] from rfl, List.append_nil]
        have hcount : 8 - bits.length = (8 - bits.length % 8) % 8 := by omega
        rw [hcount]
      · -- a full byte followed by the rest of the stream
        have htlen : (bits.take 8).length = 8 := by
          rw [List.length_take]
          omega
        rw [htlen]
        simp only [Nat.sub_self, List.replicate_zero, List.append_nil]
        have hrec := ih (bits.drop 8).length
          (by rw [List.length_drop]; omega) (bits.drop 8) rfl
        rw [hrec]
        rw [← List.append_assoc, List.take_append_drop]
        have hcnt : (8 - (bits.drop 8).length % 8) % 8 =
            (8 - bits.length % 8) % 8 := by
          rw [List.length_drop]
          omega
        rw [hcnt]

/-! ## Facts about `getFrequencyTable` -/

theorem freq_fold_facts (xs : List Nat) (hb : ∀ b ∈ xs, b < 256) :
    ∀ (m0 : FreqMap), mapSorted m0 →
      (∀ p ∈ m0, p.1 ≤ 255) → (∀ p ∈ m0, 1 ≤ p.2) →
      mapSorted (xs.foldl (fun m b =>
        mapPut m (toExtChar b) (mapGet m (toExtChar b) + 1)) m0) ∧
      (∀ p ∈ xs.foldl (fun m b =>
        mapPut m (toExtChar b) (mapGet m (toExtChar b) + 1)) m0, p.1 ≤ 255) ∧
      (∀ p ∈ xs.foldl (fun m b =>
        mapPut m (toExtChar b) (mapGet m (toExtChar b) + 1)) m0, 1 ≤ p.2) ∧
      (∀ k, containsKey m0 k = true →
        containsKey (xs.foldl (fun m b =>
          mapPut m (toExtChar b) (mapGet m (toExtChar b) + 1)) m0) k = true) ∧
      (∀ b ∈ xs, containsKey (xs.foldl (fun m b =>
        mapPut m (toExtChar b) (mapGet m (toExtChar b) + 1)) m0) b = true) := by
  induction xs with
  | nil =>
    intro m0 hs hk hv
    exact ⟨hs, hk, hv, fun k h => h, by simp⟩
  | cons x rest ih =>
    intro m0 hs hk hv
    have hx : toExtChar x = x := by
      rw [toExtChar, if_pos (hb x (by simp))]
    have hx255 : x ≤ 255 := by
      have := hb x (by simp)
      omega
    set m1 := mapPut m0 (toExtChar x) (mapGet m0 (toExtChar x) + 1) with hm1
    have hs1 : mapSorted m1 := mapPut_sorted _ _ _ hs
    have hk1 : ∀ p ∈ m1, p.1 ≤ 255 := by
      intro p hp
      rcases mem_mapPut_cases hp with h | h
      · exact hk p h
      · rw [h, hx]
        exact hx255
    have hv1 : ∀ p ∈ m1, 1 ≤ p.2 := by
      intro p hp
      rcases mem_mapPut_cases hp with h | h
      · exact hv p h
      · rw [h]
        show 1 ≤ mapGet m0 (toExtChar x) + 1
        unfold mapGet
        cases hfind : assocFind m0 (toExtChar x) with
        | none => simp
        | some v =>
          have := hv _ (assocFind_mem _ _ _ hfind)
          simp only [Option.getD_some]
          omega
    obtain ⟨ha, hb2, hc2, hd2, he2⟩ :=
      ih (fun b hb2 => hb b (by simp [hb2])) m1 hs1 hk1 hv1
    refine ⟨ha, hb2, hc2, ?_, ?_⟩
    · intro k hcont
      apply hd2
      unfold containsKey at hcont ⊢
      by_cases hkx : k = toExtChar x
      · subst hkx
        rw [hm1, assocFind_mapPut_same]
        rfl
      · rw [hm1, assocFind_mapPut_other _ _ _ _ hkx]
        exact hcont
    · intro b hbmem
      rcases List.mem_cons.1 hbmem with h | h
      · subst h
        apply hd2
        unfold containsKey
        rw [hm1, hx, assocFind_mapPut_same]
        rfl
      · exact he2 b h

/-- The facts about `getFrequencyTable` that the round trip needs:
validity of the table, `PSEUDO_EOF ↦ 1`, membership of every input
byte, and at least two entries on nonempty input. -/
theorem getFrequencyTable_facts (xs : List Nat) (hb : ∀ b ∈ xs, b < 256) :
    mapSorted (getFrequencyTable xs) ∧
    (∀ p ∈ getFrequencyTable xs, p.1 ≤ 256) ∧
    (∀ p ∈ getFrequencyTable xs, 1 ≤ p.2) ∧
    assocFind (getFrequencyTable xs) PSEUDO_EOF = some 1 ∧
    (∀ b ∈ xs, containsKey (getFrequencyTable xs) b = true) ∧
    (xs ≠ [] → 2 ≤ (getFrequencyTable xs).length) := by
  obtain ⟨ha, hk, hv, hd, he⟩ := freq_fold_facts xs hb [] (by simp [mapSorted])
    (by simp) (by simp)
  set inner := xs.foldl (fun m b =>
    mapPut m (toExtChar b) (mapGet m (toExtChar b) + 1)) [] with hinner
  have hgft : getFrequencyTable xs = mapPut inner PSEUDO_EOF 1 := rfl
  refine ⟨?_, ?_, ?_, ?_, ?_, ?_⟩
  · rw [hgft]
    exact mapPut_sorted _ _ _ ha
  · intro p hp
    rw [hgft] at hp
    rcases mem_mapPut_cases hp with h | h
    · have := hk p h
      omega
    · rw [h]
      show PSEUDO_EOF ≤ 256
      unfold PSEUDO_EOF
      omega
  · intro p hp
    rw [hgft] at hp
    rcases mem_mapPut_cases hp with h | h
    · exact hv p h
    · rw [h]
  · rw [hgft]
    exact assocFind_mapPut_same _ _ _
  · intro b hbmem
    have hblt := hb b hbmem
    have hne : b ≠ PSEUDO_EOF := by unfold PSEUDO_EOF; omega
    rw [hgft]
    unfold containsKey
    rw [assocFind_mapPut_other _ _ _ _ hne]
    exact he b hbmem
  · intro hne
    obtain ⟨b0, hb0⟩ : ∃ b0, b0 ∈ xs := by
      cases xs with
      | nil => exact absurd rfl hne
      | cons y ys => exact ⟨y, by simp⟩
    have hcont : containsKey (getFrequencyTable xs) b0 = true := by
      have hblt := hb b0 hb0
      have hne2 : b0 ≠ PSEUDO_EOF := by unfold PSEUDO_EOF; omega
      rw [hgft]
      unfold containsKey
      rw [assocFind_mapPut_other _ _ _ _ hne2]
      exact he b0 hb0
    have heof : containsKey (getFrequencyTable xs) PSEUDO_EOF = true := by
      rw [hgft]
      unfold containsKey
      rw [assocFind_mapPut_same]
      rfl
    have hbne : b0 ≠ PSEUDO_EOF := by
      have := hb b0 hb0
      unfold PSEUDO_EOF
      omega
    obtain ⟨v0, hv0⟩ := Option.isSome_iff_exists.1 hcont
    obtain ⟨v1, hv1⟩ := Option.isSome_iff_exists.1 heof
    have hm0 := assocFind_mem _ _ _ hv0
    have hm1 := assocFind_mem _ _ _ hv1
    match hft : getFrequencyTable xs with
    | [] =>
      rw [hft] at hm0
      simp at hm0
    | [p] =>
      rw [hft] at hm0 hm1
      simp only [List.mem_singleton] at hm0 hm1
      have heq : (b0, v0) = (PSEUDO_EOF, v1) := hm0.trans hm1.symm
      exact absurd (Prod.mk.injEq .. ▸ heq).1 hbne
    | p :: q :: rest =>
      simp

/-! ## Claim C1: the Huffman round trip -/

theorem flatMap_congr_mem {α β : Type} (l : List α) (f g : α → List β)
    (h : ∀ a ∈ l, f a = g a) : l.flatMap f = l.flatMap g := by
  induction l with
  | nil => rfl
  | cons x rest ih =>
    rw [List.flatMap_cons, List.flatMap_cons, h x (by simp),
      ih fun a ha => h a (by simp [ha])]

theorem compress_eq (xs : List Nat) (t : NodeT) (r : FreqMap × List Nat)
    (h1 : buildEncodingTree (getFrequencyTable xs) = some t)
    (h2 : writeFileHeader (getFrequencyTable xs) = some r) :
    compress xs = some (r.2 ++ packBits (encodeFile xs t)) := by
  show (match buildEncodingTree (getFrequencyTable xs) with
    | none => none
    | some encodingTree =>
      match writeFileHeader (getFrequencyTable xs) with
      | none => none
      | some r => some (r.2 ++ packBits (encodeFile xs encodingTree))) = _
  rw [h1]
  show (match writeFileHeader (getFrequencyTable xs) with
    | none => none
    | some r => some (r.2 ++ packBits (encodeFile xs t))) = _
  rw [h2]

theorem decompress_eq (file : List Nat) (tbl : FreqMap) (rest : List Nat)
    (t : NodeT) (h1 : readFileHeader file = some (tbl, rest))
    (h2 : buildEncodingTree tbl = some t) :
    decompress file =
      some (decodeFile t (file.length * 8) (unpackBits rest)).1 := by
  show (match readFileHeader file with
    | none => none
    | some r =>
      match buildEncodingTree r.1 with
      | none => none
      | some encodingTree =>
        some (decodeFile encodingTree (file.length * 8)
          (unpackBits r.2)).1) = _
  rw [h1]
  show (match buildEncodingTree tbl with
    | none => none
    | some encodingTree =>
      some (decodeFile encodingTree (file.length * 8) (unpackBits rest)).1) = _
  rw [h2]

theorem map_mod_of_lt (xs : List Nat) (hb : ∀ b ∈ xs, b < 256) :
    xs.map (· % 256) = xs := by
  induction xs with
  | nil => rfl
  | cons x rest ih =>
    rw [List.map_cons, Nat.mod_eq_of_lt (hb x (by simp)),
      ih fun b h => hb b (by simp [h])]

/-- C1.  Huffman round trip: decompressing the compressed form of any
byte sequence — the empty one included — yields the sequence back. -/
theorem C1_huffman_roundtrip (xs : List Nat) (hb : ∀ b ∈ xs, b < 256) :
    (compress xs).bind decompress = some xs := by
  by_cases hnil : xs = []
  · subst hnil
    decide
  · obtain ⟨hsort, hkeys, hvals, heof, hmem, hlen2⟩ :=
      getFrequencyTable_facts xs hb
    have hftne : getFrequencyTable xs ≠ [] := by
      intro h
      rw [h] at heof
      simp [assocFind] at heof
    obtain ⟨t, hbuild, htfull, htnn, htw, htl, htint, htsing⟩ :=
      buildEncodingTree_props (getFrequencyTable xs) hftne
    have hroot : internalRoot t = true := htint (hlen2 hnil)
    have hnd : ((leafEntries t).map Prod.fst).Nodup := by
      have hperm : ((leafEntries t).map Prod.fst).Perm
          ((getFrequencyTable xs).map Prod.fst) := htl.map _
      refine hperm.nodup_iff.2 ?_
      show List.Pairwise _ _
      exact (keysOf_pairwise _ hsort).imp fun h => by omega
    have hkeymem : ∀ c, containsKey (getFrequencyTable xs) c = true →
        c ∈ (leafEntries t).map Prod.fst := by
      intro c hc
      have hmem2 : c ∈ keysOf (getFrequencyTable xs) :=
        (assocFind_isSome_iff_mem_keys _ c).1 hc
      exact (htl.map Prod.fst).symm.subset hmem2
    have hfacts : ∀ c, c ∈ (leafEntries t).map Prod.fst →
        lookupA (binaryPrefixsToExtChars t [])
          ((lookupA (encTreeToBinaryPrefixes t []) c).getD []) = some c ∧
        (lookupA (encTreeToBinaryPrefixes t []) c).getD [] ≠ [] ∧
        ∀ pre, pre <+: (lookupA (encTreeToBinaryPrefixes t []) c).getD [] →
          pre ≠ (lookupA (encTreeToBinaryPrefixes t []) c).getD [] →
          lookupA (binaryPrefixsToExtChars t []) pre = none := by
      intro c hc
      obtain ⟨code, hfind, hdec, hproper, hne⟩ := tree_table_facts t hnd c hc
      rw [hfind]
      exact ⟨hdec, hne hroot, hproper⟩
    obtain ⟨hwrite, hread⟩ := header_roundtrip (getFrequencyTable xs) hsort
      hkeys (fun p hp => by have := hvals p hp; omega) heof
      (packBits (encodeFile xs t))
    obtain ⟨hdr, hwrite2, hread2⟩ :
        ∃ hdr, writeFileHeader (getFrequencyTable xs) =
            some (scrambleTable (getFrequencyTable xs), hdr) ∧
          readFileHeader (hdr ++ packBits (encodeFile xs t)) =
            some (getFrequencyTable xs, packBits (encodeFile xs t)) :=
      ⟨_, hwrite, hread⟩
    have hpay : encodeFile xs t =
        xs.flatMap
          (fun s => (lookupA (encTreeToBinaryPrefixes t []) s).getD []) ++
        (lookupA (encTreeToBinaryPrefixes t []) PSEUDO_EOF).getD [] := by
      show (xs.flatMap fun b =>
          (lookupA (encTreeToBinaryPrefixes t []) (toExtChar b)).getD []) ++
          (lookupA (encTreeToBinaryPrefixes t []) PSEUDO_EOF).getD [] = _
      congr 1
      apply flatMap_congr_mem
      intro a ha
      rw [toExtChar, if_pos (hb a ha)]
    have heofmem : PSEUDO_EOF ∈ (leafEntries t).map Prod.fst := by
      apply hkeymem
      unfold containsKey
      rw [heof]
      rfl
    obtain ⟨heof1, heof2, heof3⟩ := hfacts PSEUDO_EOF heofmem
    have hbound : ∀ (bits : List Bool) (hdr2 : List Nat),
        bits.length ≤ (hdr2 ++ packBits bits).length * 8 := by
      intro bits hdr2
      have h1 := congrArg List.length (unpack_pack bits.length bits rfl)
      rw [unpackBits_length, List.length_append, List.length_replicate] at h1
      rw [List.length_append]
      omega
    have hsymfacts : ∀ s ∈ xs,
        lookupA (binaryPrefixsToExtChars t [])
          ((lookupA (encTreeToBinaryPrefixes t []) s).getD []) = some s ∧
        (lookupA (encTreeToBinaryPrefixes t []) s).getD [] ≠ [] ∧
        s ≠ PSEUDO_EOF ∧
        ∀ pre, pre <+: (lookupA (encTreeToBinaryPrefixes t []) s).getD [] →
          pre ≠ (lookupA (encTreeToBinaryPrefixes t []) s).getD [] →
          lookupA (binaryPrefixsToExtChars t []) pre = none := by
      intro s hs
      obtain ⟨f1, f2, f3⟩ := hfacts s (hkeymem s (hmem s hs))
      refine ⟨f1, f2, ?_, f3⟩
      have := hb s hs
      unfold PSEUDO_EOF
      omega
    have hfuel : ((xs.flatMap fun s =>
          (lookupA (encTreeToBinaryPrefixes t []) s).getD []).length +
        ((lookupA (encTreeToBinaryPrefixes t []) PSEUDO_EOF).getD []).length) ≤
        (hdr ++ packBits (encodeFile xs t)).length * 8 + 1 := by
      have h2 := hbound (encodeFile xs t) hdr
      have hlen : (xs.flatMap fun s =>
          (lookupA (encTreeToBinaryPrefixes t []) s).getD []).length +
          ((lookupA (encTreeToBinaryPrefixes t []) PSEUDO_EOF).getD []).length =
          (encodeFile xs t).length := by
        rw [hpay, List.length_append]
      omega
    have hstream := decodeLoop_stream (binaryPrefixsToExtChars t [])
      (fun s => (lookupA (encTreeToBinaryPrefixes t []) s).getD [])
      ⟨heof1, heof2, heof3⟩ xs hsymfacts
      ((hdr ++ packBits (encodeFile xs t)).length * 8 + 1) hfuel
      (List.replicate ((8 - (encodeFile xs t).length % 8) % 8) false) []
    have hstream2 : ((xs.flatMap fun s =>
          (lookupA (encTreeToBinaryPrefixes t []) s).getD []) ++
        (lookupA (encTreeToBinaryPrefixes t []) PSEUDO_EOF).getD []) ++
        List.replicate ((8 - (encodeFile xs t).length % 8) % 8) false =
        encodeFile xs t ++
        List.replicate ((8 - (encodeFile xs t).length % 8) % 8) false := by
      rw [hpay]
    rw [hstream2] at hstream
    rw [compress_eq xs t _ hbuild hwrite2]
    show decompress (hdr ++ packBits (encodeFile xs t)) = some xs
    rw [decompress_eq _ _ _ t hread2 hbuild]
    rw [unpack_pack (encodeFile xs t).length (encodeFile xs t) rfl]
    unfold decodeFile
    rw [List.length_append] at hstream ⊢
    rw [hstream]
    show some ([] ++ xs.map (· % 256)) = some xs
    rw [List.nil_append, map_mod_of_lt xs hb]

/-- Witness for C1 at the concrete input "HiH". -/
theorem C1_huffman_roundtrip_witness :
    (∀ b ∈ [72, 105, 72], b < 256) ∧
    (compress [72, 105, 72]).bind decompress = some [72, 105, 72] :=
  ⟨by decide, C1_huffman_roundtrip [72, 105, 72] (by decide)⟩

/-- C4 (amended).  The lone `END_OF_STREAM` leaf is returned unwrapped
and its code is the empty bitstring; compressing a zero-length stream
therefore produces just the header `"0 "` with no payload bits, and
decompressing that file yields zero-length output (the decoder's bit
bound terminates the loop, since the empty prefix can never match the
nonempty accumulator). -/
theorem C4_empty_input_amended :
    buildEncodingTree [(PSEUDO_EOF, 1)] =
      some (NodeT.mk PSEUDO_EOF NodeT.null NodeT.null 1) ∧
    lookupA (encTreeToBinaryPrefixes
      (NodeT.mk PSEUDO_EOF NodeT.null NodeT.null 1) []) PSEUDO_EOF =
      some [] ∧
    compress [] = some [48, 32] ∧
    decompress [48, 32] = some [] := by
  refine ⟨rfl, rfl, ?_, ?_⟩
  · decide
  · decide

/-! ## Claim C5: the decoder's bit budget -/

/-- The loop reads at most one bit per unit of fuel. -/
theorem decodeLoop_reads_le (tbl : List (List Bool × Nat)) :
    ∀ (fuel : Nat) (bits acc : List Bool) (out : List Nat),
      (decodeLoop tbl fuel bits acc out).2 ≤ fuel := by
  intro fuel
  induction fuel with
  | zero => intro bits acc out; exact Nat.le_refl 0
  | succ f ih =>
    intro bits acc out
    simp only [decodeLoop]
    split
    · rename_i c heq
      split
      · show 1 ≤ f + 1
        omega
      · have h := ih bits.tail [] (out ++ [c % 256])
        simpa using Nat.succ_le_succ h
    · have h := ih bits.tail (acc ++ [bits.headD true]) out
      simpa using Nat.succ_le_succ h

/-- C5 (amended).  `decodeFile` reads at most `numBits + 1` bits — one
more than its own `infile.size() * 8` budget, because the loop guard is
`numBitsRead <= numBits` — and upon decoding `END_OF_STREAM` it stops at
once, leaving all trailing bits unread. -/
theorem C5_decode_bit_bound :
    (∀ (tree : NodeT) (numBits : Nat) (bits : List Bool),
      (decodeFile tree numBits bits).2 ≤ numBits + 1) ∧
    (∀ (tree : NodeT) (numBits : Nat) (eofCode junk : List Bool),
      lookupA (binaryPrefixsToExtChars tree []) eofCode = some PSEUDO_EOF →
      eofCode ≠ [] →
      (∀ pre, pre <+: eofCode → pre ≠ eofCode →
        lookupA (binaryPrefixsToExtChars tree []) pre = none) →
      eofCode.length ≤ numBits + 1 →
      decodeFile tree numBits (eofCode ++ junk) = ([], eofCode.length)) := by
  constructor
  · intro tree numBits bits
    exact decodeLoop_reads_le _ _ _ _ _
  · intro tree numBits eofCode junk h1 h2 h3 h4
    unfold decodeFile
    rw [decodeLoop_code _ eofCode PSEUDO_EOF h1 h3 eofCode h2 [] rfl
      (numBits + 1) h4 junk []]
    rw [if_pos rfl]

/-- Witness for C5 on a two-leaf tree: decoding a stream that starts
with `END_OF_STREAM`'s one-bit code reads exactly that one bit and
leaves the junk unread. -/
theorem C5_decode_bit_bound_witness :
    decodeFile (NodeT.mk NOT_A_CHAR (NodeT.mk 97 NodeT.null NodeT.null 1)
        (NodeT.mk PSEUDO_EOF NodeT.null NodeT.null 1) 2) 8
      ([true] ++ [false, false, true]) = ([], 1) :=
  C5_decode_bit_bound.2
    (NodeT.mk NOT_A_CHAR (NodeT.mk 97 NodeT.null NodeT.null 1)
      (NodeT.mk PSEUDO_EOF NodeT.null NodeT.null 1) 2) 8
    [true] [false, false, true] (by decide) (by decide)
    (by
      intro pre hpre hne
      have hp : pre = [] := by
        obtain ⟨s, hs⟩ := hpre
        cases pre with
        | nil => rfl
        | cons b pre2 =>
          exfalso
          have hlen := congrArg List.length hs
          rw [List.length_append] at hlen
          simp only [List.length_cons, List.length_nil] at hlen
          have hpre2 : pre2 = [] := by
            rw [← List.length_eq_zero]
            omega
          have hs2 : s = [] := by
            rw [← List.length_eq_zero]
            omega
          subst hpre2
          subst hs2
          rw [List.append_nil] at hs
          exact hne hs
      rw [hp]
      rfl)
    (by decide)

/-- Counterexample to C5 as stated: on the single-leaf degenerate tree
(the decode table holds only the empty prefix, which the nonempty
accumulator never matches), with a one-byte payload declared
(`numBits = 8`), `decodeFile` reads 9 bits — more than the payload's
8. -/
theorem C5_overread_counterexample :
    (decodeFile (NodeT.mk PSEUDO_EOF NodeT.null NodeT.null 1) 8
      (List.replicate 8 false)).2 = 9 ∧ ¬ (9 ≤ 8) := by
  constructor
  · decide
  · decide

/-! ## LZW codec (`LZWLibrary.h`)

`compressString` seeds a string→code dictionary with the 256 single-byte
strings and repeatedly extends the current match `w`; `decompress` seeds
the mirror code→string dictionary, primes `w` from the FIRST code by
truncating it to a `char` (`std::string w(1, *begin++)`) with no
validity check, and resolves the remaining codes with the known /
next-code / error three-way branch.  An empty code sequence makes
`decompress` dereference its end iterator, so the model returns `none`
for it. -/

namespace LZW

def initCompDict : List (List Nat × Nat) :=
  (List.range 256).map (fun i => ([i], i))

def initDecompDict : List (Nat × List Nat) :=
  (List.range 256).map (fun i => (i, [i]))

def compressLoop (d : List (List Nat × Nat)) (dictSize : Nat) (w : List Nat) :
    List Nat → List Nat
  | [] => if w = [] then [] else [(lookupA d w).getD 0]
  | c :: rest =>
    if (lookupA d (w ++ [c])).isSome then
      compressLoop d dictSize (w ++ [c]) rest
    else
      (lookupA d w).getD 0 ::
        compressLoop (d ++ [(w ++ [c], dictSize)]) (dictSize + 1) [c] rest

def compressString (uncompressed : List Nat) : List Nat :=
  compressLoop initCompDict 256 [] uncompressed

def decompressLoop (d : List (Nat × List Nat)) (dictSize : Nat) (w : List Nat) :
    List Nat → Option (List Nat)
  | [] => some []
  | k :: rest =>
    match lookupA d k with
    | some entry =>
      (decompressLoop (d ++ [(dictSize, w ++ [entry.headD 0])]) (dictSize + 1)
        entry rest).map (fun r => entry ++ r)
    | none =>
      if k = dictSize then
        (decompressLoop (d ++ [(dictSize, w ++ [w.headD 0])]) (dictSize + 1)
          (w ++ [w.headD 0]) rest).map (fun r => (w ++ [w.headD 0]) ++ r)
      else none

def decompress : List Nat → Option (List Nat)
  | [] => none
  | k0 :: rest =>
    (decompressLoop initDecompDict 256 [k0 % 256] rest).map
      (fun r => [k0 % 256] ++ r)

/-- Looking a key up in an appended dictionary tries the front part
first. -/
theorem lookupA_append {α β : Type} [DecidableEq α]
    (d e : List (α × β)) (k : α) :
    lookupA (d ++ e) k =
      match lookupA d k with
      | some v => some v
      | none => lookupA e k := by
  induction d with
  | nil => rfl
  | cons p rest ih =>
    obtain ⟨k0, v0⟩ := p
    by_cases h : k = k0
    · simp only [List.cons_append, lookupA, if_pos h]
    · simp only [List.cons_append, lookupA, if_neg h]
      exact ih

theorem initCompDict_single {b : Nat} (hb : b < 256) :
    lookupA initCompDict [b] = some b := by
  apply mem_lookupA
  · unfold initCompDict
    rw [List.map_map]
    exact (List.nodup_range 256).map
      (fun i j h => by simpa using congrArg (fun l => l.headD 0) h)
  · unfold initCompDict
    rw [List.mem_map]
    exact ⟨b, List.mem_range.mpr hb, rfl⟩

theorem initCompDict_some {s : List Nat} {k : Nat}
    (h : lookupA initCompDict s = some k) : s = [k] ∧ k < 256 := by
  have hm := lookupA_mem h
  unfold initCompDict at hm
  rw [List.mem_map] at hm
  obtain ⟨i, hi, he⟩ := hm
  rw [List.mem_range] at hi
  obtain ⟨h1, h2⟩ := Prod.mk.injEq .. ▸ he
  subst h2
  exact ⟨h1.symm, hi⟩

theorem initCompDict_two {a b : Nat} :
    lookupA initCompDict [a, b] = none := by
  apply lookupA_eq_none
  intro p hp
  unfold initCompDict at hp
  rw [List.mem_map] at hp
  obtain ⟨i, _, he⟩ := hp
  rw [← he]
  intro hcon
  exact absurd (congrArg List.length hcon) (by simp)

theorem initDecompDict_lt {k : Nat} (hk : k < 256) :
    lookupA initDecompDict k = some [k] := by
  apply mem_lookupA
  · unfold initDecompDict
    rw [List.map_map]
    exact (List.nodup_range 256).map (fun i j h => by simpa using h)
  · unfold initDecompDict
    rw [List.mem_map]
    exact ⟨k, List.mem_range.mpr hk, rfl⟩

theorem initDecompDict_ge {k : Nat} (hk : 256 ≤ k) :
    lookupA initDecompDict k = none := by
  apply lookupA_eq_none
  intro p hp
  unfold initDecompDict at hp
  rw [List.mem_map] at hp
  obtain ⟨i, hi, he⟩ := hp
  rw [List.mem_range] at hi
  rw [← he]
  intro hcon
  simp only at hcon
  omega

/-- The entries a compression run appends to the seed dictionary:
string `ts[i]` receives code `n + i`. -/
def enumD : Nat → List (List Nat) → List (List Nat × Nat)
  | _, [] => []
  | n, t :: ts => (t, n) :: enumD (n + 1) ts

/-- The mirror entries on the decompression side: code `n + i` maps to
string `ts[i]`. -/
def enumE : Nat → List (List Nat) → List (Nat × List Nat)
  | _, [] => []
  | n, t :: ts => (n, t) :: enumE (n + 1) ts

theorem enumD_append (ts1 ts2 : List (List Nat)) :
    ∀ n, enumD n (ts1 ++ ts2) = enumD n ts1 ++ enumD (n + ts1.length) ts2 := by
  induction ts1 with
  | nil => intro n; simp [enumD]
  | cons t ts ih =>
    intro n
    show (t, n) :: enumD (n + 1) (ts ++ ts2) =
      ((t, n) :: enumD (n + 1) ts) ++ enumD (n + (ts.length + 1)) ts2
    rw [List.cons_append, ih (n + 1),
      show n + 1 + ts.length = n + (ts.length + 1) by omega]

theorem enumE_append (ts1 ts2 : List (List Nat)) :
    ∀ n, enumE n (ts1 ++ ts2) = enumE n ts1 ++ enumE (n + ts1.length) ts2 := by
  induction ts1 with
  | nil => intro n; simp [enumE]
  | cons t ts ih =>
    intro n
    show (n, t) :: enumE (n + 1) (ts ++ ts2) =
      ((n, t) :: enumE (n + 1) ts) ++ enumE (n + (ts.length + 1)) ts2
    rw [List.cons_append, ih (n + 1),
      show n + 1 + ts.length = n + (ts.length + 1) by omega]

theorem enumD_some {ts : List (List Nat)} :
    ∀ {n : Nat} {s : List Nat} {k : Nat},
      lookupA (enumD n ts) s = some k →
      n ≤ k ∧ k - n < ts.length ∧ ts.getD (k - n) [] = s := by
  induction ts with
  | nil => intro n s k h; simp [enumD, lookupA] at h
  | cons t ts ih =>
    intro n s k h
    simp only [enumD, lookupA] at h
    by_cases hs : s = t
    · rw [if_pos hs] at h
      injection h with h
      subst h
      refine ⟨Nat.le_refl n, ?_, ?_⟩
      · simp
      · rw [Nat.sub_self]
        simp [hs]
    · rw [if_neg hs] at h
      obtain ⟨h1, h2, h3⟩ := ih h
      refine ⟨by omega, ?_, ?_⟩
      · simp only [List.length_cons]
        omega
      · rw [show k - n = (k - (n + 1)) + 1 by omega]
        simpa using h3

theorem enumE_lookup_lt {ts : List (List Nat)} :
    ∀ {n k : Nat}, n ≤ k → k - n < ts.length →
      lookupA (enumE n ts) k = some (ts.getD (k - n) []) := by
  induction ts with
  | nil => intro n k h1 h2; simp at h2
  | cons t ts ih =>
    intro n k h1 h2
    simp only [enumE, lookupA]
    by_cases hk : k = n
    · rw [if_pos hk, hk, Nat.sub_self]
      simp
    · rw [if_neg hk]
      have h1' : n + 1 ≤ k := by omega
      have h2' : k - (n + 1) < ts.length := by
        simp only [List.length_cons] at h2
        omega
      rw [ih h1' h2']
      rw [show k - n = (k - (n + 1)) + 1 by omega]
      simp

theorem enumE_lookup_ge {ts : List (List Nat)} :
    ∀ {n k : Nat}, n + ts.length ≤ k → lookupA (enumE n ts) k = none := by
  induction ts with
  | nil => intro n k _; rfl
  | cons t ts ih =>
    intro n k h
    simp only [List.length_cons] at h
    simp only [enumE, lookupA]
    rw [if_neg (by omega)]
    exact ih (by omega)

theorem compressLoop_cons_mem {d : List (List Nat × Nat)} {n : Nat}
    {w : List Nat} {c : Nat} {rest : List Nat}
    (h : (lookupA d (w ++ [c])).isSome) :
    compressLoop d n w (c :: rest) = compressLoop d n (w ++ [c]) rest := by
  simp only [compressLoop, if_pos h]

theorem compressLoop_cons_new {d : List (List Nat × Nat)} {n : Nat}
    {w : List Nat} {c : Nat} {rest : List Nat}
    (h : ¬(lookupA d (w ++ [c])).isSome) :
    compressLoop d n w (c :: rest) =
      (lookupA d w).getD 0 ::
        compressLoop (d ++ [(w ++ [c], n)]) (n + 1) [c] rest := by
  simp only [compressLoop, if_neg h]

theorem decompressLoop_cons_some {d : List (Nat × List Nat)}
    {dictSize : Nat} {w : List Nat} {k : Nat} {rest : List Nat}
    {entry : List Nat} (h : lookupA d k = some entry) :
    decompressLoop d dictSize w (k :: rest) =
      (decompressLoop (d ++ [(dictSize, w ++ [entry.headD 0])])
        (dictSize + 1) entry rest).map (fun r => entry ++ r) := by
  simp only [decompressLoop]
  split
  · rename_i e he
    rw [h] at he
    injection he with he
    subst he
    rfl
  · rename_i he
    rw [h] at he
    exact absurd he (by simp)

theorem decompressLoop_cons_self {d : List (Nat × List Nat)}
    {dictSize : Nat} {w : List Nat} {rest : List Nat}
    (h : lookupA d dictSize = none) :
    decompressLoop d dictSize w (dictSize :: rest) =
      (decompressLoop (d ++ [(dictSize, w ++ [w.headD 0])])
        (dictSize + 1) (w ++ [w.headD 0]) rest).map
        (fun r => (w ++ [w.headD 0]) ++ r) := by
  simp only [decompressLoop]
  split
  · rename_i e he
    rw [h] at he
    exact absurd he (by simp)
  · simp

theorem decompressLoop_cons_err {d : List (Nat × List Nat)}
    {dictSize : Nat} {w : List Nat} {k : Nat} {rest : List Nat}
    (h1 : lookupA d k = none) (h2 : k ≠ dictSize) :
    decompressLoop d dictSize w (k :: rest) = none := by
  simp only [decompressLoop]
  split
  · rename_i e he
    rw [h1] at he
    exact absurd he (by simp)
  · rw [if_neg h2]

/-- Codes stored in the compression dictionary stay below its size. -/
theorem compDict_code_lt {ts : List (List Nat)} {s : List Nat} {k : Nat}
    (h : lookupA (initCompDict ++ enumD 256 ts) s = some k) :
    k < 256 + ts.length := by
  rw [lookupA_append] at h
  cases hi : lookupA initCompDict s with
  | some v =>
    rw [hi] at h
    injection h with h
    subst h
    have := (initCompDict_some hi).2
    omega
  | none =>
    rw [hi] at h
    obtain ⟨h1, h2, _⟩ := enumD_some h
    omega

/-- Resolving an emitted code on the decompression side: a code below
the decoder's current size resolves to the very string the compressor
looked up, and the one code at the current size is the compressor's
most recently added string. -/
theorem code_resolve {ts : List (List Nat)} {t : List Nat}
    {s : List Nat} {k : Nat}
    (h : lookupA (initCompDict ++ enumD 256 (ts ++ [t])) s = some k) :
    (k < 256 + ts.length →
      lookupA (initDecompDict ++ enumE 256 ts) k = some s) ∧
    (k = 256 + ts.length → s = t) := by
  rw [lookupA_append] at h
  cases hi : lookupA initCompDict s with
  | some v =>
    rw [hi] at h
    injection h with h
    subst h
    obtain ⟨hs, hk⟩ := initCompDict_some hi
    constructor
    · intro _
      rw [lookupA_append, initDecompDict_lt hk, hs]
    · intro hcon
      omega
  | none =>
    rw [hi] at h
    obtain ⟨h1, h2, h3⟩ := enumD_some h
    simp only [List.length_append, List.length_singleton] at h2
    constructor
    · intro hlt
      have hlt' : k - 256 < ts.length := by omega
      rw [lookupA_append, initDecompDict_ge h1, enumE_lookup_lt h1 hlt']
      rw [← h3]
      rw [List.getD_append _ _ _ _ hlt']
    · intro heq
      rw [← h3, heq]
      rw [show 256 + ts.length - 256 = ts.length by omega]
      rw [List.getD_append_right ts [t] [] ts.length (Nat.le_refl _),
        Nat.sub_self]
      rfl

theorem decompDict_lookup_ge {ts : List (List Nat)} {k : Nat}
    (h : 256 + ts.length ≤ k) :
    lookupA (initDecompDict ++ enumE 256 ts) k = none := by
  rw [lookupA_append, initDecompDict_ge (by omega)]
  exact enumE_lookup_ge (by omega)

theorem lookupA_append_isSome_left {α β : Type} [DecidableEq α]
    {d : List (α × β)} (e : List (α × β)) {k : α}
    (h : (lookupA d k).isSome) : (lookupA (d ++ e) k).isSome := by
  rw [lookupA_append]
  cases hl : lookupA d k with
  | none => rw [hl] at h; exact absurd h (by simp)
  | some v => simp

/-- Main simulation invariant.  After the compressor has emitted the
codes for a prefix of the input, adding the strings `ts` to both
dictionaries plus one extra entry `p ++ [w.headD 0]` on the compressor
side (the entry it created when the current match `w` began), the
decompressor — whose previous string is `p` — reconstructs `w ++ rest`
from the remaining emitted codes. -/
theorem lzw_sim (rest : List Nat) :
    ∀ (ts : List (List Nat)) (p w : List Nat),
      (∀ b ∈ rest, b < 256) → p ≠ [] → w ≠ [] →
      (lookupA (initCompDict ++
        enumD 256 (ts ++ [p ++ [w.headD 0]])) w).isSome →
      decompressLoop (initDecompDict ++ enumE 256 ts) (256 + ts.length) p
        (compressLoop (initCompDict ++ enumD 256 (ts ++ [p ++ [w.headD 0]]))
          (257 + ts.length) w rest) = some (w ++ rest) := by
  induction rest with
  | nil =>
    intro ts p w _ hp hw hsome
    obtain ⟨k, hk⟩ := Option.isSome_iff_exists.mp hsome
    simp only [compressLoop, if_neg hw, hk, Option.getD_some]
    have hlt := compDict_code_lt hk
    simp only [List.length_append, List.length_singleton] at hlt
    by_cases hcase : k < 256 + ts.length
    · have hres := (code_resolve hk).1 hcase
      rw [decompressLoop_cons_some hres]
      rfl
    · have hkeq : k = 256 + ts.length := by omega
      subst hkeq
      have hst := (code_resolve hk).2 rfl
      have hnone : lookupA (initDecompDict ++ enumE 256 ts)
          (256 + ts.length) = none := decompDict_lookup_ge (Nat.le_refl _)
      rw [decompressLoop_cons_self hnone]
      have hhead : w.headD 0 = p.headD 0 := by
        rw [hst]
        cases p with
        | nil => exact absurd rfl hp
        | cons a p2 => rfl
      show some ((p ++ [p.headD 0]) ++ []) = some (w ++ [])
      rw [← hhead, ← hst]
  | cons c rest ih =>
    intro ts p w hb hp hw hsome
    have hc : c < 256 := hb c (List.mem_cons_self c rest)
    have hb' : ∀ b ∈ rest, b < 256 :=
      fun b hb2 => hb b (List.mem_cons_of_mem c hb2)
    by_cases hwc : (lookupA (initCompDict ++
        enumD 256 (ts ++ [p ++ [w.headD 0]])) (w ++ [c])).isSome
    · rw [compressLoop_cons_mem hwc]
      have hhead : (w ++ [c]).headD 0 = w.headD 0 := by
        cases w with
        | nil => exact absurd rfl hw
        | cons a w2 => rfl
      have hstep := ih ts p (w ++ [c]) hb' hp (by simp) (by rw [hhead]; exact hwc)
      rw [hhead] at hstep
      have h2 : (w ++ [c]) ++ rest = w ++ (c :: rest) := by simp
      rw [h2] at hstep
      exact hstep
    · rw [compressLoop_cons_new hwc]
      obtain ⟨k, hk⟩ := Option.isSome_iff_exists.mp hsome
      rw [hk]
      simp only [Option.getD_some]
      have hlt := compDict_code_lt hk
      simp only [List.length_append, List.length_singleton] at hlt
      have hsome' : (lookupA (initCompDict ++
          enumD 256 ((ts ++ [p ++ [w.headD 0]]) ++
            [w ++ [List.headD [c] 0]])) [c]).isSome :=
        lookupA_append_isSome_left _ (by rw [initCompDict_single hc]; rfl)
      have hstep := ih (ts ++ [p ++ [w.headD 0]]) w [c] hb' hw
        (by simp) hsome'
      simp only [List.headD_cons] at hstep
      have hl : (ts ++ [p ++ [w.headD 0]]).length = ts.length + 1 := by simp
      rw [hl] at hstep
      have hD2 : enumD 256 ((ts ++ [p ++ [w.headD 0]]) ++ [w ++ [c]]) =
          enumD 256 (ts ++ [p ++ [w.headD 0]]) ++
            [(w ++ [c], 257 + ts.length)] := by
        rw [enumD_append, hl,
          show 256 + (ts.length + 1) = 257 + ts.length by omega]
        rfl
      rw [hD2, ← List.append_assoc] at hstep
      by_cases hcase : k < 256 + ts.length
      · have hres := (code_resolve hk).1 hcase
        rw [decompressLoop_cons_some hres]
        have hE : (initDecompDict ++ enumE 256 ts) ++
            [(256 + ts.length, p ++ [w.headD 0])] =
            initDecompDict ++ enumE 256 (ts ++ [p ++ [w.headD 0]]) := by
          rw [enumE_append, List.append_assoc]
          rfl
        rw [hE]
        rw [show 256 + ts.length + 1 = 256 + (ts.length + 1) by omega,
          show 257 + ts.length + 1 = 257 + (ts.length + 1) by omega]
        rw [hstep]
        rfl
      · have hkeq : k = 256 + ts.length := by omega
        subst hkeq
        have hst := (code_resolve hk).2 rfl
        have hnone : lookupA (initDecompDict ++ enumE 256 ts)
            (256 + ts.length) = none := decompDict_lookup_ge (Nat.le_refl _)
        rw [decompressLoop_cons_self hnone]
        have hhead : w.headD 0 = p.headD 0 := by
          rw [hst]
          cases p with
          | nil => exact absurd rfl hp
          | cons a p2 => rfl
        have hpw : p ++ [p.headD 0] = w := by rw [← hhead, ← hst]
        rw [hpw]
        have hE : (initDecompDict ++ enumE 256 ts) ++
            [(256 + ts.length, w)] =
            initDecompDict ++ enumE 256 (ts ++ [p ++ [w.headD 0]]) := by
          rw [← hst, enumE_append, List.append_assoc]
          rfl
        rw [hE]
        rw [show 256 + ts.length + 1 = 256 + (ts.length + 1) by omega,
          show 257 + ts.length + 1 = 257 + (ts.length + 1) by omega]
        rw [hstep]
        rfl

theorem initDecompDict_isSome (k : Nat) :
    (lookupA initDecompDict k).isSome ↔ k < 256 := by
  by_cases hk : k < 256
  · rw [initDecompDict_lt hk]
    exact iff_of_true rfl hk
  · rw [initDecompDict_ge (by omega)]
    exact iff_of_false (by simp) hk

/-- Appending the next entry extends the contiguous code range by
one. -/
theorem lookupA_snoc_isSome {d : List (Nat × List Nat)} {dictSize : Nat}
    (x : List Nat) (hd : ∀ k, (lookupA d k).isSome ↔ k < dictSize) :
    ∀ k, (lookupA (d ++ [(dictSize, x)]) k).isSome ↔ k < dictSize + 1 := by
  intro k
  rw [lookupA_append]
  cases hl : lookupA d k with
  | some v =>
    have hlt := (hd k).mp (by rw [hl]; rfl)
    exact iff_of_true rfl (by omega)
  | none =>
    have hge : ¬ k < dictSize := by
      intro hlt
      have h2 := (hd k).mpr hlt
      rw [hl] at h2
      exact absurd h2 (by simp)
    show (lookupA [(dictSize, x)] k).isSome = true ↔ k < dictSize + 1
    simp only [lookupA]
    by_cases hk : k = dictSize
    · rw [if_pos hk]
      exact iff_of_true rfl (by omega)
    · rw [if_neg hk]
      constructor
      · intro h
        exact absurd h (by simp [lookupA])
      · intro h
        exact absurd (by omega : k = dictSize) hk

theorem exists_shift {dictSize k : Nat} {rest : List Nat}
    (hk : k ≤ dictSize) :
    (∃ j, j < rest.length ∧ (dictSize + 1) + j < rest.getD j 0) ↔
    (∃ j, j < (k :: rest).length ∧ dictSize + j < (k :: rest).getD j 0) := by
  constructor
  · rintro ⟨j, hj, hgt⟩
    refine ⟨j + 1, ?_, ?_⟩
    · simp only [List.length_cons]
      omega
    · show dictSize + (j + 1) < rest.getD j 0
      omega
  · rintro ⟨j, hj, hgt⟩
    cases j with
    | zero =>
      exfalso
      have hlt : dictSize < k := by simpa using hgt
      omega
    | succ j =>
      refine ⟨j, ?_, ?_⟩
      · simp only [List.length_cons] at hj
        omega
      · have hgt2 : dictSize + (j + 1) < rest.getD j 0 := hgt
        omega

/-- After the unchecked first code, the loop fails exactly when some
code exceeds the dictionary size reached at its position. -/
theorem decompressLoop_none_iff (cs : List Nat) :
    ∀ (d : List (Nat × List Nat)) (dictSize : Nat) (w : List Nat),
      (∀ k, (lookupA d k).isSome ↔ k < dictSize) →
      (decompressLoop d dictSize w cs = none ↔
        ∃ j, j < cs.length ∧ dictSize + j < cs.getD j 0) := by
  induction cs with
  | nil =>
    intro d dictSize w _
    constructor
    · intro h
      exact absurd h (by simp [decompressLoop])
    · rintro ⟨j, hj, _⟩
      simp at hj
  | cons k rest ih =>
    intro d dictSize w hd
    cases hl : lookupA d k with
    | some entry =>
      have hklt : k < dictSize := (hd k).mp (by rw [hl]; rfl)
      rw [decompressLoop_cons_some hl, Option.map_eq_none',
        ih _ _ _ (lookupA_snoc_isSome _ hd)]
      exact exists_shift (by omega)
    | none =>
      by_cases hk : k = dictSize
      · subst hk
        rw [decompressLoop_cons_self hl, Option.map_eq_none',
          ih _ _ _ (lookupA_snoc_isSome _ hd)]
        exact exists_shift (Nat.le_refl _)
      · have hge : ¬ k < dictSize := by
          intro hlt
          have h2 := (hd k).mpr hlt
          rw [hl] at h2
          exact absurd h2 (by simp)
        rw [decompressLoop_cons_err hl hk]
        constructor
        · intro _
          refine ⟨0, by simp, ?_⟩
          show dictSize + 0 < k
          omega
        · intro _
          rfl

/-- Counterexample to C2: compressing the empty sequence emits no
codes, and `decompress` on an empty code range dereferences its end
iterator (`*begin++` with `begin == end`, modeled as `none`) instead of
returning the empty sequence. -/
theorem C2_empty_roundtrip_counterexample :
    compressString [] = [] ∧ decompress [] = none :=
  ⟨rfl, rfl⟩

/-- C2 (amended).  The LZW round-trip holds for every NONEMPTY byte
sequence: decompressing the code sequence that `compressString`
produces restores the input exactly.  The empty sequence is excluded:
its code sequence is empty and `decompress` reads a first code
unconditionally. -/
theorem C2_lzw_roundtrip (xs : List Nat) (hne : xs ≠ [])
    (hb : ∀ b ∈ xs, b < 256) :
    decompress (compressString xs) = some xs := by
  cases xs with
  | nil => exact absurd rfl hne
  | cons x0 xs2 =>
    have hx0 : x0 < 256 := hb x0 (List.mem_cons_self _ _)
    have h1 : compressString (x0 :: xs2) =
        compressLoop initCompDict 256 [x0] xs2 := by
      unfold compressString
      rw [compressLoop_cons_mem (by
        show (lookupA initCompDict ([] ++ [x0])).isSome
        rw [List.nil_append, initCompDict_single hx0]
        rfl)]
      rfl
    cases xs2 with
    | nil =>
      rw [h1]
      have h2 : compressLoop initCompDict 256 [x0] [] = [x0] := by
        simp only [compressLoop]
        rw [if_neg (by simp), initCompDict_single hx0]
        rfl
      rw [h2]
      show some ([x0 % 256] ++ []) = some [x0]
      rw [Nat.mod_eq_of_lt hx0, List.append_nil]
    | cons c rest =>
      have hc : c < 256 := hb c (by simp)
      have hb' : ∀ b ∈ rest, b < 256 := fun b h => hb b (by simp [h])
      rw [h1]
      rw [compressLoop_cons_new (by
        rw [show ([x0] ++ [c] : List Nat) = [x0, c] from rfl,
          initCompDict_two]
        simp)]
      rw [initCompDict_single hx0]
      simp only [Option.getD_some]
      have hsome9 : (lookupA (initCompDict ++
          enumD 256 ([] ++ [[x0] ++ [List.headD [c] 0]])) [c]).isSome :=
        lookupA_append_isSome_left _ (by rw [initCompDict_single hc]; rfl)
      have hsim := lzw_sim rest [] [x0] [c] hb' (by simp) (by simp) hsome9
      simp only [enumE, enumD, List.append_nil, List.nil_append,
        List.length_nil, List.headD_cons, List.singleton_append,
        Nat.add_zero] at hsim
      simp only [decompress]
      rw [Nat.mod_eq_of_lt hx0]
      show (decompressLoop initDecompDict 256 [x0]
        (compressLoop (initCompDict ++ [([x0, c], 256)]) 257
          [c] rest)).map (fun r => [x0] ++ r) = some (x0 :: c :: rest)
      rw [hsim]
      rfl

/-- Witness for C2 at the concrete input "TOBEORNOT". -/
theorem C2_lzw_roundtrip_witness :
    decompress (compressString [84, 79, 66, 69, 79, 82, 78, 79, 84]) =
      some [84, 79, 66, 69, 79, 82, 78, 79, 84] :=
  C2_lzw_roundtrip [84, 79, 66, 69, 79, 82, 78, 79, 84]
    (by decide) (by decide)

set_option maxRecDepth 10000 in
/-- Counterexample to C8: the FIRST code is never validated — 300 is
neither a known code nor the next free code 256, so the claim demands a
fatal error, yet `decompress` silently truncates it to the byte 44 and
succeeds. -/
theorem C8_first_code_counterexample :
    lookupA initDecompDict 300 = none ∧ 300 ≠ 256 ∧
    decompress [300] = some [44] := by
  refine ⟨by decide, by decide, by decide⟩

/-- C8 (amended).  From the second code on, the three-way branch of the
claim holds: a known code resolves to its stored string, the code equal
to the next free code resolves to the previous string plus its first
character, and any other code aborts with no result.  The first code is
exempt — it is truncated to a byte unchecked — so a run fails exactly
when some LATER code `cs[j]` exceeds `256 + j`, the dictionary size
reached at its position. -/
theorem C8_decompress_error_iff :
    (∀ (d : List (Nat × List Nat)) (dictSize : Nat) (w : List Nat)
        (k : Nat) (rest : List Nat) (entry : List Nat),
      lookupA d k = some entry →
      decompressLoop d dictSize w (k :: rest) =
        (decompressLoop (d ++ [(dictSize, w ++ [entry.headD 0])])
          (dictSize + 1) entry rest).map (fun r => entry ++ r)) ∧
    (∀ (d : List (Nat × List Nat)) (dictSize : Nat) (w rest : List Nat),
      lookupA d dictSize = none →
      decompressLoop d dictSize w (dictSize :: rest) =
        (decompressLoop (d ++ [(dictSize, w ++ [w.headD 0])])
          (dictSize + 1) (w ++ [w.headD 0]) rest).map
          (fun r => (w ++ [w.headD 0]) ++ r)) ∧
    (∀ (d : List (Nat × List Nat)) (dictSize : Nat) (w : List Nat)
        (k : Nat) (rest : List Nat),
      lookupA d k = none → k ≠ dictSize →
      decompressLoop d dictSize w (k :: rest) = none) ∧
    (∀ (k0 : Nat) (cs : List Nat),
      decompress (k0 :: cs) = none ↔
        ∃ j, j < cs.length ∧ 256 + j < cs.getD j 0) := by
  refine ⟨?_, ?_, ?_, ?_⟩
  · intro d dictSize w k rest entry h
    exact decompressLoop_cons_some h
  · intro d dictSize w rest h
    exact decompressLoop_cons_self h
  · intro d dictSize w k rest h1 h2
    exact decompressLoop_cons_err h1 h2
  · intro k0 cs
    show ((decompressLoop initDecompDict 256 [k0 % 256] cs).map
      (fun r => [k0 % 256] ++ r) = none) ↔ _
    rw [Option.map_eq_none']
    exact decompressLoop_none_iff cs initDecompDict 256 _
      initDecompDict_isSome

set_option maxRecDepth 10000 in
/-- Witness for C8: a second code that is unknown and not the next free
code (400 with dictionary size 256) aborts the stream. -/
theorem C8_decompress_error_iff_witness :
    decompressLoop initDecompDict 256 [97] [400] = none ∧
    decompress [97, 400] = none :=
  ⟨C8_decompress_error_iff.2.2.1 initDecompDict 256 [97] 400 []
      (by decide) (by decide),
   (C8_decompress_error_iff.2.2.2 97 [400]).mpr ⟨0, by decide, by decide⟩⟩

end LZW

end Assignment06
